import Mathlib

/-!
# Verification of `pragmatic-file-declutter` core subsystems

A shallow embedding, in Lean 4, of the two core subsystems of the
`pragmatic-file-declutter` repository, together with proofs and refutations of
the specification's claims about them:

* `core/dedup.py` — perceptual-hash fingerprints (`ImageHash`), the BK-tree
  metric index (`BKTree`), the union-find structure (`UnionFind`) and the
  transitive grouping algorithm (`find_duplicates`).
* `core/file_ops.py` — the persistent undo stack (`UndoStack`) and the safe
  move/undo operations (`safe_move`, `undo_last`, `undo_all`).

Embedding conventions:

* Python hex-string hashes are embedded by their numeric value: the source
  compares hashes via `int(h, 16)`, so a hash is a `Nat` here.
* Paths are embedded as `String`s; `Path.resolve()` is the identity on the
  already-canonical paths of the model.
* The filesystem is a set of existing file paths (`FS`), and the outcome of
  each `shutil.move` syscall is an explicit boolean oracle (`osOk`), `false`
  meaning the call raises `OSError`.
* The persisted undo-history file is a value of type `HistoryFile`: `missing`,
  `corrupt` (any content `json.loads`/`MoveRecord(**·)` rejects), or a `valid`
  list of records.
* Python `dict`s are embedded as insertion-ordered association lists, matching
  dict iteration order; Python `list.sort(key=…, reverse=True)` is embedded by
  the stable `List.mergeSort` with the reversed comparison.
-/

namespace Declutter

/-! ## Bit counting

`ImageHash._hex_hamming` counts set bits via `bin(xor).count("1")`.  We embed
that as `popCount` below.  The function is defined through a structural fuel
parameter (the number itself bounds the number of binary digits) so that it
evaluates by kernel reduction; `popCount_eq` recovers the natural recursion.
-/

def popCountAux : Nat → Nat → Nat
  | 0, _ => 0
  | fuel + 1, n => if n = 0 then 0 else n % 2 + popCountAux fuel (n / 2)

/-- Number of set bits of `n` (the source's `bin(n).count("1")`). -/
def popCount (n : Nat) : Nat := popCountAux n n

theorem popCountAux_congr : ∀ fuel fuel' n, n ≤ fuel → n ≤ fuel' →
    popCountAux fuel n = popCountAux fuel' n := by
  intro fuel
  induction fuel with
  | zero =>
    intro fuel' n h h'
    interval_cases n
    cases fuel' <;> simp [popCountAux]
  | succ f ih =>
    intro fuel' n h h'
    match n, h' with
    | 0, _ => cases fuel' <;> simp [popCountAux]
    | (m+1), h' =>
      match fuel', h' with
      | (f'+1), h' =>
        simp only [popCountAux, Nat.succ_ne_zero, if_false]
        have h1 : (m+1) / 2 ≤ f := by omega
        have h2 : (m+1) / 2 ≤ f' := by omega
        rw [ih f' ((m+1)/2) h1 h2]

theorem popCount_eq (n : Nat) : popCount n = if n = 0 then 0 else n % 2 + popCount (n / 2) := by
  unfold popCount
  match n with
  | 0 => simp [popCountAux]
  | (m+1) =>
    simp only [popCountAux, Nat.succ_ne_zero, if_false]
    rw [popCountAux_congr m ((m+1)/2) ((m+1)/2) (by omega) (le_refl _)]

theorem popCount_zero : popCount 0 = 0 := rfl

theorem xor_div_two (a b : Nat) : (a ^^^ b) / 2 = a / 2 ^^^ b / 2 := by
  apply Nat.eq_of_testBit_eq
  intro i
  simp [Nat.testBit_div_two]

/-- Subadditivity of bit counting under `xor`. -/
theorem popCount_xor_le (a : Nat) : ∀ b, popCount (a ^^^ b) ≤ popCount a + popCount b := by
  induction a using Nat.strong_induction_on with
  | _ a ih =>
    intro b
    rcases Nat.eq_zero_or_pos a with ha | ha
    · simp [ha]
    rw [popCount_eq (a ^^^ b), popCount_eq a, popCount_eq b]
    have hne : ¬ a = 0 := by omega
    simp only [hne, if_false]
    by_cases hb : b = 0
    · subst hb
      simp [popCount_eq a, hne]
    simp only [hb, if_false]
    by_cases hx : a ^^^ b = 0
    · simp [hx]
    simp only [hx, if_false]
    have hmod : (a ^^^ b) % 2 = (a + b) % 2 := Nat.xor_mod_two_eq
    have hdiv : (a ^^^ b) / 2 = a / 2 ^^^ b / 2 := xor_div_two a b
    have hrec : popCount (a / 2 ^^^ b / 2) ≤ popCount (a / 2) + popCount (b / 2) :=
      ih (a / 2) (Nat.div_lt_self ha one_lt_two) (b / 2)
    rw [hdiv]
    omega

/-- An `xor` of numbers below `2 ^ k` has at most `k` set bits. -/
theorem popCount_le_of_lt_two_pow : ∀ k n, n < 2 ^ k → popCount n ≤ k := by
  intro k
  induction k with
  | zero =>
    intro n h
    interval_cases n
    simp [popCount_zero]
  | succ k ih =>
    intro n h
    rw [popCount_eq]
    by_cases hn : n = 0
    · simp [hn]
    simp only [hn, if_false]
    have h2 : n / 2 < 2 ^ k := by
      have : 2 ^ (k + 1) = 2 ^ k * 2 := by ring
      omega
    have := ih (n / 2) h2
    omega

/-- Triangle inequality for the per-hash bit distance. -/
theorem popCount_xor_triangle (a b c : Nat) :
    popCount (a ^^^ c) ≤ popCount (a ^^^ b) + popCount (b ^^^ c) := by
  have h : a ^^^ c = (a ^^^ b) ^^^ (b ^^^ c) := by
    rw [Nat.xor_assoc, ← Nat.xor_assoc b b c, Nat.xor_self, Nat.zero_xor]
  rw [h]
  exact popCount_xor_le _ _

/-! ## `ImageHash` (dedup.py, lines 34–81)

The source stores `phash` and `dhash` as hex strings and compares them through
`int(h, 16)`; the embedding keeps the numeric values directly.
-/

/-- Combined perceptual hash of an image (`ImageHash` dataclass). -/
structure ImageHash where
  phash : Nat
  dhash : Nat
  path : String
deriving DecidableEq, Inhabited

/-- `ImageHash._hex_hamming`: number of differing bits of two hashes. -/
def hexHamming (v1 v2 : Nat) : Nat := popCount (v1 ^^^ v2)

/-- `ImageHash.hamming_distance`: floor-halved sum of the two sub-hash
Hamming distances. -/
def ImageHash.hamming_distance (a b : ImageHash) : Nat :=
  (hexHamming a.phash b.phash + hexHamming a.dhash b.dhash) / 2

theorem hexHamming_comm (v1 v2 : Nat) : hexHamming v1 v2 = hexHamming v2 v1 := by
  unfold hexHamming
  rw [Nat.xor_comm]

theorem hexHamming_self (v : Nat) : hexHamming v v = 0 := by
  unfold hexHamming
  rw [Nat.xor_self, popCount_zero]

theorem popCount_pos (n : Nat) (h : n ≠ 0) : 0 < popCount n := by
  induction n using Nat.strong_induction_on with
  | _ n ih =>
    rw [popCount_eq]
    simp only [h, if_false]
    rcases Nat.even_or_odd n with he | ho
    · have h2 : n / 2 ≠ 0 := by
        rcases he with ⟨m, hm⟩
        omega
      have := ih (n / 2) (Nat.div_lt_self (Nat.pos_of_ne_zero h) one_lt_two) h2
      omega
    · have : n % 2 = 1 := Nat.odd_iff.mp ho
      omega

theorem hexHamming_eq_zero_iff (v1 v2 : Nat) : hexHamming v1 v2 = 0 ↔ v1 = v2 := by
  unfold hexHamming
  constructor
  · intro h
    by_contra hne
    have hx : v1 ^^^ v2 ≠ 0 := Nat.xor_ne_zero.mpr hne
    have := popCount_pos _ hx
    omega
  · intro h
    rw [h, Nat.xor_self, popCount_zero]

theorem hamming_distance_comm (a b : ImageHash) :
    a.hamming_distance b = b.hamming_distance a := by
  unfold ImageHash.hamming_distance
  rw [hexHamming_comm a.phash, hexHamming_comm a.dhash]

theorem hamming_distance_self (a : ImageHash) : a.hamming_distance a = 0 := by
  unfold ImageHash.hamming_distance
  rw [hexHamming_self, hexHamming_self]

theorem hamming_distance_le_64 (a b : ImageHash)
    (hap : a.phash < 2 ^ 64) (had : a.dhash < 2 ^ 64)
    (hbp : b.phash < 2 ^ 64) (hbd : b.dhash < 2 ^ 64) :
    a.hamming_distance b ≤ 64 := by
  unfold ImageHash.hamming_distance hexHamming
  have h1 : popCount (a.phash ^^^ b.phash) ≤ 64 :=
    popCount_le_of_lt_two_pow 64 _ (Nat.xor_lt_two_pow hap hbp)
  have h2 : popCount (a.dhash ^^^ b.dhash) ≤ 64 :=
    popCount_le_of_lt_two_pow 64 _ (Nat.xor_lt_two_pow had hbd)
  omega

theorem hamming_distance_eq_zero_iff (a b : ImageHash) :
    a.hamming_distance b = 0 ↔
      hexHamming a.phash b.phash + hexHamming a.dhash b.dhash ≤ 1 := by
  unfold ImageHash.hamming_distance
  omega

/-- The floor-halved combined distance obeys the triangle inequality only up
to an additive defect of 1. -/
theorem hamming_distance_triangle_defect (a b c : ImageHash) :
    a.hamming_distance c ≤ a.hamming_distance b + b.hamming_distance c + 1 := by
  unfold ImageHash.hamming_distance
  have h1 := popCount_xor_triangle a.phash b.phash c.phash
  have h2 := popCount_xor_triangle a.dhash b.dhash c.dhash
  unfold hexHamming
  omega

/-! ### Claim C3 -/

/-- C3, counterexample: the claim's "zero iff both sub-hashes are
bit-identical" fails.  Fingerprints whose `phash`es differ in a single bit and
whose `dhash`es coincide have combined distance `(1 + 0) / 2 = 0` although the
sub-hashes are not bit-identical. -/
theorem C3_counterexample :
    (ImageHash.mk 0 0 "a").hamming_distance (ImageHash.mk 1 0 "b") = 0 ∧
      (ImageHash.mk 0 0 "a").phash ≠ (ImageHash.mk 1 0 "b").phash := by
  constructor
  · decide
  · decide

/-- C3 (amended): `hamming_distance` is the floor-halved sum of the two
sub-hash Hamming distances, is symmetric, lies in `0..64` for 64-bit
sub-hashes, vanishes on equal arguments — and it is zero iff the *sum* of the
two sub-hash distances is at most 1 (in particular whenever both sub-hashes
are bit-identical, but also when the fingerprints differ in exactly one bit
overall). -/
theorem C3_hamming_distance_spec (a b : ImageHash)
    (hap : a.phash < 2 ^ 64) (had : a.dhash < 2 ^ 64)
    (hbp : b.phash < 2 ^ 64) (hbd : b.dhash < 2 ^ 64) :
    a.hamming_distance b =
        (hexHamming a.phash b.phash + hexHamming a.dhash b.dhash) / 2 ∧
      a.hamming_distance b = b.hamming_distance a ∧
      a.hamming_distance b ≤ 64 ∧
      a.hamming_distance a = 0 ∧
      (a.hamming_distance b = 0 ↔
        hexHamming a.phash b.phash + hexHamming a.dhash b.dhash ≤ 1) ∧
      (a.phash = b.phash ∧ a.dhash = b.dhash → a.hamming_distance b = 0) := by
  refine ⟨rfl, hamming_distance_comm a b, hamming_distance_le_64 a b hap had hbp hbd,
    hamming_distance_self a, hamming_distance_eq_zero_iff a b, ?_⟩
  rintro ⟨h1, h2⟩
  rw [hamming_distance_eq_zero_iff, h1, h2, hexHamming_self, hexHamming_self]
  omega

/-- C3, witness for `C3_hamming_distance_spec` at concrete 64-bit inputs. -/
theorem C3_hamming_distance_spec_witness :
    (ImageHash.mk 5 9 "a").hamming_distance (ImageHash.mk 4 9 "b") = 0 ∧
      (ImageHash.mk 5 9 "a").hamming_distance (ImageHash.mk 4 9 "b") ≤ 64 := by
  have h := C3_hamming_distance_spec (ImageHash.mk 5 9 "a") (ImageHash.mk 4 9 "b")
    (by decide) (by decide) (by decide) (by decide)
  refine ⟨?_, h.2.2.1⟩
  rw [h.2.2.2.2.1]
  decide

/-! ## `BKTree` (dedup.py, lines 111–206)

The Python node is `(ImageHash, dict[int, BKTree])`; the `None` root is the
`empty` constructor and the insertion-ordered dict of children is an
association list `List (Nat × BKTree)` (new distances are appended at the end,
as dict insertion does).
-/

inductive BKTree where
  | empty : BKTree
  | node : ImageHash → List (Nat × BKTree) → BKTree

mutual

/-- `BKTree.add`: insert an item (recursing into the child at the computed
distance, creating a one-node subtree at a fresh distance). -/
def BKTree.add : BKTree → ImageHash → BKTree
  | .empty, item => .node item []
  | .node node_hash children, item =>
    .node node_hash (BKTree.addChild (node_hash.hamming_distance item) item children)

/-- The dict update `children[distance].add(item)` /
`children[distance] = subtree` of `BKTree.add`. -/
def BKTree.addChild (distance : Nat) (item : ImageHash) :
    List (Nat × BKTree) → List (Nat × BKTree)
  | [] => [(distance, .node item [])]
  | (d', t) :: rest =>
    if distance = d' then (d', t.add item) :: rest
    else (d', t) :: BKTree.addChild distance item rest

end

mutual

/-- `BKTree._search`: recursive range query with triangle-inequality pruning.
Results are produced in the source's append order (node match first, then the
children in dict order). -/
def BKTree.search (query : ImageHash) (threshold : Nat) : BKTree → List (ImageHash × Nat)
  | .empty => []
  | .node node_hash children =>
    (if node_hash.hamming_distance query ≤ threshold then
      [(node_hash, node_hash.hamming_distance query)]
    else []) ++
      BKTree.searchChildren query threshold (node_hash.hamming_distance query) children

/-- The child loop of `BKTree._search`; `distance - threshold` is Python's
`max(0, distance - threshold)` (truncated `Nat` subtraction). -/
def BKTree.searchChildren (query : ImageHash) (threshold distance : Nat) :
    List (Nat × BKTree) → List (ImageHash × Nat)
  | [] => []
  | (child_dist, subtree) :: rest =>
    (if distance - threshold ≤ child_dist ∧ child_dist ≤ distance + threshold then
      BKTree.search query threshold subtree
    else []) ++ BKTree.searchChildren query threshold distance rest

end

/-- `BKTree.find_within`. -/
def BKTree.find_within (t : BKTree) (query : ImageHash) (threshold : Nat) :
    List (ImageHash × Nat) :=
  BKTree.search query threshold t

mutual

/-- `BKTree.__iter__`: pre-order traversal (node, then each child subtree). -/
def BKTree.toList : BKTree → List ImageHash
  | .empty => []
  | .node node_hash children => node_hash :: BKTree.childrenToList children

def BKTree.childrenToList : List (Nat × BKTree) → List ImageHash
  | [] => []
  | (_, subtree) :: rest => subtree.toList ++ BKTree.childrenToList rest

end

/-- The tree-building loop of `find_duplicates`: `for h in hashes: tree.add(h)`. -/
def buildTree (hashes : List ImageHash) : BKTree :=
  hashes.foldl BKTree.add .empty

/-- Modelled from the spec: the brute-force all-pairs filter that
`find_within` is claimed to be result-set-equivalent to — keep every stored
fingerprint whose distance to the query is at most the threshold, paired with
that distance. -/
def bruteForceWithin (query : ImageHash) (threshold : Nat)
    (stored : List ImageHash) : List (ImageHash × Nat) :=
  stored.filterMap fun x =>
    if x.hamming_distance query ≤ threshold then some (x, x.hamming_distance query) else none

theorem mem_bruteForceWithin (query : ImageHash) (threshold : Nat)
    (stored : List ImageHash) (p : ImageHash × Nat) :
    p ∈ bruteForceWithin query threshold stored ↔
      p.1 ∈ stored ∧ p.2 = p.1.hamming_distance query ∧
        p.1.hamming_distance query ≤ threshold := by
  unfold bruteForceWithin
  rw [List.mem_filterMap]
  constructor
  · rintro ⟨x, hx, heq⟩
    by_cases hle : x.hamming_distance query ≤ threshold
    · simp only [hle, if_true, Option.some.injEq] at heq
      cases p
      cases heq
      exact ⟨hx, rfl, hle⟩
    · simp [hle] at heq
  · rintro ⟨h1, h2, h3⟩
    exact ⟨p.1, h1, by cases p with | mk a b => simp_all⟩

/-- Size-based induction principle for the nested `BKTree` type. -/
theorem BKTree.inductionOn {P : BKTree → Prop}
    (he : P .empty)
    (hn : ∀ h cs, (∀ p ∈ cs, P p.2) → P (.node h cs)) : ∀ t, P t := by
  have key : ∀ n t, sizeOf t ≤ n → P t := by
    intro n
    induction n with
    | zero =>
      intro t ht
      cases t with
      | empty => exact he
      | node h cs => simp at ht
    | succ n ih =>
      intro t ht
      cases t with
      | empty => exact he
      | node h cs =>
        apply hn
        intro p hp
        apply ih
        have h1 : sizeOf p < sizeOf cs := List.sizeOf_lt_of_mem hp
        have h2 : sizeOf p.2 < sizeOf p := by
          cases p with | mk d t' => simp
        simp at ht
        omega
  exact fun t => key (sizeOf t) t (le_refl _)

theorem mem_childrenToList (cs : List (Nat × BKTree)) (x : ImageHash) :
    x ∈ BKTree.childrenToList cs ↔ ∃ p ∈ cs, x ∈ p.2.toList := by
  induction cs with
  | nil => simp [BKTree.childrenToList]
  | cons hd rest ih =>
    cases hd with
    | mk d t =>
      simp only [BKTree.childrenToList, List.mem_append, ih, List.mem_cons]
      constructor
      · rintro (h | ⟨p, hp, hx⟩)
        · exact ⟨(d, t), Or.inl rfl, h⟩
        · exact ⟨p, Or.inr hp, hx⟩
      · rintro ⟨p, hp | hp, hx⟩
        · subst hp
          exact Or.inl hx
        · exact Or.inr ⟨p, hp, hx⟩

theorem mem_toList_add : ∀ t : BKTree, ∀ item y,
    y ∈ (t.add item).toList ↔ y = item ∨ y ∈ t.toList := by
  intro t
  induction t using BKTree.inductionOn with
  | he =>
    intro item y
    simp [BKTree.add, BKTree.toList, BKTree.childrenToList]
  | hn h cs ih =>
    intro item y
    have key : ∀ cs' : List (Nat × BKTree),
        (∀ p ∈ cs', ∀ item y, y ∈ (p.2.add item).toList ↔ y = item ∨ y ∈ p.2.toList) →
        ∀ d, y ∈ BKTree.childrenToList (BKTree.addChild d item cs') ↔
          y = item ∨ y ∈ BKTree.childrenToList cs' := by
      intro cs'
      induction cs' with
      | nil =>
        intro _ d
        simp [BKTree.addChild, BKTree.childrenToList, BKTree.toList]
      | cons hd rest ihcs =>
        intro hmem d
        cases hd with
        | mk d' t' =>
          by_cases hdd : d = d'
          · simp only [BKTree.addChild, hdd, if_true, BKTree.childrenToList,
              List.mem_append]
            rw [hmem (d', t') (by simp)]
            tauto
          · simp only [BKTree.addChild, hdd, if_false, BKTree.childrenToList,
              List.mem_append]
            rw [ihcs (fun p hp => hmem p (by simp [hp])) d]
            tauto
    simp only [BKTree.add, BKTree.toList, List.mem_cons]
    rw [key cs ih (h.hamming_distance item)]
    tauto

/-- Well-formedness of a BK-tree: every item stored in the child subtree at
key `d` is at distance exactly `d` from the node (the invariant `add`
establishes). -/
inductive BKTree.WF : BKTree → Prop where
  | empty : BKTree.WF .empty
  | node (h : ImageHash) (cs : List (Nat × BKTree))
      (hsub : ∀ p ∈ cs, BKTree.WF p.2)
      (hdist : ∀ p ∈ cs, ∀ x ∈ p.2.toList, h.hamming_distance x = p.1) :
      BKTree.WF (.node h cs)

theorem BKTree.WF.add : ∀ t : BKTree, t.WF → ∀ item, (t.add item).WF := by
  intro t
  induction t using BKTree.inductionOn with
  | he =>
    intro _ item
    exact BKTree.WF.node item [] (by simp) (by simp)
  | hn h cs ih =>
    intro hwf item
    cases hwf with
    | node _ _ hsub hdist =>
      have key : ∀ cs' : List (Nat × BKTree),
          (∀ p ∈ cs', p.2.WF → (p.2.add item).WF) →
          (∀ p ∈ cs', p.2.WF) →
          (∀ p ∈ cs', ∀ x ∈ p.2.toList, h.hamming_distance x = p.1) →
          ∀ d, d = h.hamming_distance item →
            (∀ p ∈ BKTree.addChild d item cs', p.2.WF) ∧
            (∀ p ∈ BKTree.addChild d item cs', ∀ x ∈ p.2.toList,
              h.hamming_distance x = p.1) := by
        intro cs'
        induction cs' with
        | nil =>
          intro _ _ _ d hd
          constructor
          · intro p hp
            simp only [BKTree.addChild, List.mem_singleton] at hp
            subst hp
            exact BKTree.WF.node item [] (by simp) (by simp)
          · intro p hp x hx
            simp only [BKTree.addChild, List.mem_singleton] at hp
            subst hp
            simp only [BKTree.toList, BKTree.childrenToList, List.mem_singleton] at hx
            subst hx
            exact hd.symm
        | cons hd' rest ihcs =>
          intro hihs hws hds d hd
          cases hd' with
          | mk d' t' =>
            by_cases hdd : d = d'
            · constructor
              · intro p hp
                simp only [BKTree.addChild, hdd, if_true, List.mem_cons] at hp
                rcases hp with hp | hp
                · subst hp
                  exact hihs (d', t') (by simp) (hws (d', t') (by simp))
                · exact hws p (by simp [hp])
              · intro p hp x hx
                simp only [BKTree.addChild, hdd, if_true, List.mem_cons] at hp
                rcases hp with hp | hp
                · subst hp
                  simp only at hx
                  rw [mem_toList_add t' item x] at hx
                  rcases hx with hx | hx
                  · subst hx
                    rw [← hd, hdd]
                  · exact hds (d', t') (by simp) x hx
                · exact hds p (by simp [hp]) x hx
            · have hrest := ihcs (fun p hp => hihs p (by simp [hp]))
                (fun p hp => hws p (by simp [hp]))
                (fun p hp => hds p (by simp [hp])) d hd
              constructor
              · intro p hp
                simp only [BKTree.addChild, hdd, if_false, List.mem_cons] at hp
                rcases hp with hp | hp
                · subst hp
                  exact hws (d', t') (by simp)
                · exact hrest.1 p hp
              · intro p hp x hx
                simp only [BKTree.addChild, hdd, if_false, List.mem_cons] at hp
                rcases hp with hp | hp
                · subst hp
                  exact hds (d', t') (by simp) x hx
                · exact hrest.2 p hp x hx
      have hk := key cs (fun p hp hw => ih p hp hw item) hsub hdist
        (h.hamming_distance item) rfl
      exact BKTree.WF.node h _ hk.1 hk.2

theorem buildTree_wf (hashes : List ImageHash) : (buildTree hashes).WF := by
  unfold buildTree
  have key : ∀ (l : List ImageHash) (t : BKTree), t.WF → (l.foldl BKTree.add t).WF := by
    intro l
    induction l with
    | nil => exact fun t h => h
    | cons hd rest ih =>
      intro t ht
      exact ih (t.add hd) (BKTree.WF.add t ht hd)
  exact key hashes .empty BKTree.WF.empty

theorem mem_toList_buildTree (hashes : List ImageHash) (y : ImageHash) :
    y ∈ (buildTree hashes).toList ↔ y ∈ hashes := by
  unfold buildTree
  have key : ∀ (l : List ImageHash) (t : BKTree),
      y ∈ (l.foldl BKTree.add t).toList ↔ y ∈ l ∨ y ∈ t.toList := by
    intro l
    induction l with
    | nil => simp
    | cons hd rest ih =>
      intro t
      simp only [List.foldl_cons, ih, mem_toList_add, List.mem_cons]
      tauto
  rw [key hashes .empty]
  simp [BKTree.toList]

theorem search_sound : ∀ t : BKTree, ∀ query threshold p,
    p ∈ BKTree.search query threshold t →
      p.1 ∈ t.toList ∧ p.2 = p.1.hamming_distance query ∧ p.2 ≤ threshold := by
  intro t
  induction t using BKTree.inductionOn with
  | he =>
    intro query threshold p hp
    simp [BKTree.search] at hp
  | hn h cs ih =>
    intro query threshold p hp
    have key : ∀ cs' : List (Nat × BKTree),
        (∀ c ∈ cs', ∀ query threshold p, p ∈ BKTree.search query threshold c.2 →
          p.1 ∈ c.2.toList ∧ p.2 = p.1.hamming_distance query ∧ p.2 ≤ threshold) →
        ∀ d, p ∈ BKTree.searchChildren query threshold d cs' →
          p.1 ∈ BKTree.childrenToList cs' ∧ p.2 = p.1.hamming_distance query ∧
            p.2 ≤ threshold := by
      intro cs'
      induction cs' with
      | nil =>
        intro _ d hp
        simp [BKTree.searchChildren] at hp
      | cons hd rest ihcs =>
        intro hs d hp
        cases hd with
        | mk cd sub =>
          simp only [BKTree.searchChildren, List.mem_append] at hp
          rcases hp with hp | hp
          · split at hp
            · have := hs (cd, sub) (by simp) query threshold p hp
              refine ⟨?_, this.2.1, this.2.2⟩
              simp only [BKTree.childrenToList, List.mem_append]
              exact Or.inl this.1
            · simp at hp
          · have := ihcs (fun c hc => hs c (by simp [hc])) d hp
            refine ⟨?_, this.2.1, this.2.2⟩
            simp only [BKTree.childrenToList, List.mem_append]
            exact Or.inr this.1
    simp only [BKTree.search, List.mem_append] at hp
    rcases hp with hp | hp
    · split at hp
      · rename_i hle
        simp only [List.mem_singleton] at hp
        subst hp
        exact ⟨by simp [BKTree.toList], rfl, hle⟩
      · simp at hp
    · have := key cs ih (h.hamming_distance query) hp
      refine ⟨?_, this.2.1, this.2.2⟩
      simp only [BKTree.toList, List.mem_cons]
      exact Or.inr this.1

theorem search_complete : ∀ t : BKTree, t.WF → ∀ query threshold x,
    x ∈ t.toList → x.hamming_distance query + 1 ≤ threshold →
      (x, x.hamming_distance query) ∈ BKTree.search query threshold t := by
  intro t
  induction t using BKTree.inductionOn with
  | he =>
    intro _ query threshold x hx
    simp [BKTree.toList] at hx
  | hn h cs ih =>
    intro hwf query threshold x hx hclose
    cases hwf with
    | node _ _ hsub hdist =>
      simp only [BKTree.toList, List.mem_cons] at hx
      simp only [BKTree.search, List.mem_append]
      rcases hx with hx | hx
      · subst hx
        left
        have : x.hamming_distance query ≤ threshold := by omega
        simp [this]
      · right
        rw [mem_childrenToList] at hx
        rcases hx with ⟨p, hp, hxp⟩
        have hkey : h.hamming_distance x = p.1 := hdist p hp x hxp
        -- the pruning interval at this node keeps the child containing x
        have hup : p.1 ≤ h.hamming_distance query + threshold := by
          have ht : h.hamming_distance x ≤
              h.hamming_distance query + query.hamming_distance x + 1 :=
            hamming_distance_triangle_defect h query x
          have hc : query.hamming_distance x = x.hamming_distance query :=
            hamming_distance_comm query x
          omega
        have hlow : h.hamming_distance query - threshold ≤ p.1 := by
          have ht : h.hamming_distance query ≤
              h.hamming_distance x + x.hamming_distance query + 1 :=
            hamming_distance_triangle_defect h x query
          omega
        have hrec : (x, x.hamming_distance query) ∈ BKTree.search query threshold p.2 :=
          ih p hp (hsub p hp) query threshold x hxp hclose
        have key : ∀ cs' : List (Nat × BKTree), p ∈ cs' →
            (h.hamming_distance query - threshold ≤ p.1 ∧
              p.1 ≤ h.hamming_distance query + threshold) →
            (x, x.hamming_distance query) ∈
              BKTree.searchChildren query threshold (h.hamming_distance query) cs' := by
          intro cs'
          induction cs' with
          | nil => simp
          | cons hd rest ihcs =>
            intro hpmem hcond
            cases hd with
            | mk cd sub =>
              simp only [List.mem_cons] at hpmem
              simp only [BKTree.searchChildren, List.mem_append]
              rcases hpmem with hpmem | hpmem
              · left
                subst hpmem
                have hcnd : h.hamming_distance query - threshold ≤ cd ∧
                    cd ≤ h.hamming_distance query + threshold := ⟨hcond.1, hcond.2⟩
                rw [if_pos hcnd]
                exact hrec
              · right
                exact ihcs hpmem hcond
        exact key cs hp ⟨hlow, hup⟩

/-! ### Claim C1 -/

/-- C1, counterexample: exact brute-force equivalence of `find_within` fails.
With `n = (phash 0, dhash 0)`, `x = (phash 3, dhash 0)`, `q = (phash 1,
dhash 0)` we get `distance(n,x) = 1`, `distance(n,q) = 0`, `distance(x,q) =
0`: at threshold 0 the brute-force filter over the stored items `{n, x}`
returns both, but the tree search prunes the child at distance 1 (interval
`[0,0]`) and misses `x` — the floor-halved combined distance violates the
triangle inequality, so BK-tree pruning is not exact. -/
theorem C1_counterexample :
    (ImageHash.mk 3 0 "x", 0) ∈ bruteForceWithin (ImageHash.mk 1 0 "q") 0
        (BKTree.toList ((BKTree.empty.add (ImageHash.mk 0 0 "n")).add
          (ImageHash.mk 3 0 "x"))) ∧
      (ImageHash.mk 3 0 "x", 0) ∉
        ((BKTree.empty.add (ImageHash.mk 0 0 "n")).add
          (ImageHash.mk 3 0 "x")).find_within (ImageHash.mk 1 0 "q") 0 := by
  constructor
  · simp only [BKTree.add, BKTree.toList, BKTree.childrenToList, BKTree.addChild,
      bruteForceWithin, ImageHash.hamming_distance, hexHamming]
    decide
  · simp only [BKTree.find_within, BKTree.search, BKTree.searchChildren, BKTree.add,
      BKTree.addChild, BKTree.toList, BKTree.childrenToList,
      ImageHash.hamming_distance, hexHamming]
    decide

/-- C1 (amended): `find_within` on a tree built from the stored fingerprints
is *sound* with respect to the brute-force filter (every returned pair is a
stored fingerprint together with its true distance, within the threshold),
and it is complete for every stored fingerprint whose distance is *strictly*
below the threshold (`distance + 1 ≤ threshold`); completeness at distance
exactly equal to the threshold — and hence exact result-set equality — fails
(see the counterexample), because the floor-halved combined distance violates
the triangle inequality by up to 1. -/
theorem C1_find_within_spec (hashes : List ImageHash) (query : ImageHash)
    (threshold : Nat) :
    (∀ p ∈ (buildTree hashes).find_within query threshold,
        p ∈ bruteForceWithin query threshold hashes) ∧
      (∀ x ∈ hashes, x.hamming_distance query + 1 ≤ threshold →
        (x, x.hamming_distance query) ∈ (buildTree hashes).find_within query threshold) := by
  constructor
  · intro p hp
    have hs := search_sound (buildTree hashes) query threshold p hp
    rw [mem_bruteForceWithin]
    rw [mem_toList_buildTree] at hs
    exact ⟨hs.1, hs.2.1, by have := hs.2.1; have := hs.2.2; omega⟩
  · intro x hx hclose
    exact search_complete (buildTree hashes) (buildTree_wf hashes) query threshold x
      ((mem_toList_buildTree hashes x).mpr hx) hclose

/-- C1, witness for `C1_find_within_spec`: at threshold 1 the pruned search
does return the fingerprint the threshold-0 counterexample misses. -/
theorem C1_find_within_spec_witness :
    (ImageHash.mk 3 0 "x", 0) ∈
      (buildTree [ImageHash.mk 0 0 "n", ImageHash.mk 3 0 "x"]).find_within
        (ImageHash.mk 1 0 "q") 1 :=
  (C1_find_within_spec [ImageHash.mk 0 0 "n", ImageHash.mk 3 0 "x"]
    (ImageHash.mk 1 0 "q") 1).2 (ImageHash.mk 3 0 "x") (by decide) (by decide)

/-! ## `file_ops.py`: move records, undo stack, safe move/undo

The filesystem is the set of existing file paths (`List String`); directory
creation (`mkdir(parents=True, exist_ok=True)`) is a no-op in this model,
which only tracks files.  Every `shutil.move` call takes an explicit boolean
oracle `osOk`; `false` means the call raises `OSError`.  The history file is a
`HistoryFile` value; "corrupt" stands for any content on which
`json.loads`/`MoveRecord(**·)` raises.
-/

/-- `MoveRecord` dataclass (timestamp kept abstract as a string). -/
structure MoveRecord where
  src : String
  dst : String
  timestamp : String
  operation_type : String := "move"
deriving DecidableEq

/-- `MoveRecord.create` — `resolve()` is the identity on the model's
canonical paths; the current time is passed explicitly. -/
def MoveRecord.create (src dst timestamp : String) : MoveRecord :=
  ⟨src, dst, timestamp, "move"⟩

/-- The on-disk undo-history file. -/
inductive HistoryFile where
  | missing : HistoryFile
  | corrupt : HistoryFile
  | valid : List MoveRecord → HistoryFile
deriving DecidableEq

/-- `UndoStack._load`: a missing file leaves the records empty, a corrupt one
resets them to empty (the `except` branch), a valid one yields its list. -/
def loadHistory : HistoryFile → List MoveRecord
  | .missing => []
  | .corrupt => []
  | .valid records => records

/-- An `UndoStack` together with the content of its history file (the Python
object holds `_records`; `disk` is the external state it mirrors into). -/
structure UndoStack where
  records : List MoveRecord
  disk : HistoryFile
deriving DecidableEq

/-- `UndoStack.__init__`: load from the history file; the file itself is not
written by construction. -/
def UndoStack.init (disk : HistoryFile) : UndoStack :=
  ⟨loadHistory disk, disk⟩

/-- `UndoStack._save`: full snapshot rewrite of the history file. -/
def UndoStack.save (st : UndoStack) : UndoStack :=
  ⟨st.records, .valid st.records⟩

/-- `UndoStack.push`: append at the tail, then save. -/
def UndoStack.push (st : UndoStack) (record : MoveRecord) : UndoStack :=
  UndoStack.save ⟨st.records ++ [record], st.disk⟩

/-- `UndoStack.pop`: remove and return the tail record (no save when the
stack is empty). -/
def UndoStack.pop (st : UndoStack) : Option MoveRecord × UndoStack :=
  match st.records.getLast? with
  | none => (none, st)
  | some record => (some record, UndoStack.save ⟨st.records.dropLast, st.disk⟩)

/-- `UndoStack.peek`. -/
def UndoStack.peek (st : UndoStack) : Option MoveRecord :=
  st.records.getLast?

/-- `UndoStack.is_empty`. -/
def UndoStack.is_empty (st : UndoStack) : Bool :=
  st.records.length == 0

/-- `UndoStack.clear`: drop all records, then save. -/
def UndoStack.clear (st : UndoStack) : UndoStack :=
  UndoStack.save ⟨[], st.disk⟩

/-- `path.exists()` against the modelled filesystem. -/
def fsExists (fs : List String) (p : String) : Bool :=
  fs.contains p

/-- A successful `shutil.move(src, dst)`: `src` stops existing, `dst` starts. -/
def fsMove (fs : List String) (src dst : String) : List String :=
  dst :: fs.erase src

/-- The exception taxonomy of `file_ops.py`.  The three `undo*` constructors
are the three `UndoError` messages of `undo_last`. -/
inductive FileOpError where
  | sourceNotFound : FileOpError
  | destinationExists : FileOpError
  | moveFailed : FileOpError
  | undoMovedFileMissing : FileOpError
  | undoSourceOccupied : FileOpError
  | undoMoveFailed : FileOpError
deriving DecidableEq

/-- `safe_move` (file_ops.py, lines 158–191): precondition checks, the move
syscall (outcome `osOk`), then record creation and push.  A failed syscall
leaves the modelled filesystem unchanged. -/
def safe_move (src dst timestamp : String) (osOk : Bool) (fs : List String)
    (undo_stack : UndoStack) :
    Except FileOpError Unit × List String × UndoStack :=
  if fsExists fs src = false then (.error .sourceNotFound, fs, undo_stack)
  else if fsExists fs dst = true then (.error .destinationExists, fs, undo_stack)
  else if osOk then
    (.ok (), fsMove fs src dst, undo_stack.push (MoveRecord.create src dst timestamp))
  else (.error .moveFailed, fs, undo_stack)

/-- `undo_last` (file_ops.py, lines 194–229).  Note that the record is popped
*before* the precondition checks, and is pushed back only in the
`except OSError` branch. -/
def undo_last (osOk : Bool) (fs : List String) (undo_stack : UndoStack) :
    Except FileOpError (Option MoveRecord) × List String × UndoStack :=
  match undo_stack.pop with
  | (none, st') => (.ok none, fs, st')
  | (some record, st') =>
    if fsExists fs record.dst = false then (.error .undoMovedFileMissing, fs, st')
    else if fsExists fs record.src = true then (.error .undoSourceOccupied, fs, st')
    else if osOk then (.ok (some record), fsMove fs record.dst record.src, st')
    else (.error .undoMoveFailed, fs, st'.push record)

theorem undo_last_ok_some_shrinks (osOk : Bool) (fs : List String) (st : UndoStack)
    (r : MoveRecord) (fs' : List String) (st' : UndoStack)
    (h : undo_last osOk fs st = (.ok (some r), fs', st')) :
    st'.records.length < st.records.length := by
  unfold undo_last UndoStack.pop at h
  cases hg : st.records.getLast? with
  | none =>
    rw [hg] at h
    simp at h
  | some rec =>
    have hne : st.records ≠ [] := by
      intro hnil
      rw [hnil] at hg
      simp at hg
    rw [hg] at h
    simp only at h
    split at h
    · simp at h
    split at h
    · simp at h
    split at h
    · simp only [Prod.mk.injEq] at h
      have := h.2.2
      subst this
      simp only [UndoStack.save, List.length_dropLast]
      have : 0 < st.records.length := List.length_pos.mpr hne
      omega
    · simp at h

/-- `undo_all` (file_ops.py, lines 232–251): repeatedly undo until the stack
is empty; an error propagates immediately with the stack and filesystem as
they were at the failure.  The per-call oracle is `osOk k` for the `k`-th
`shutil.move`.  (The `.ok none` branch is unreachable: popping a non-empty
stack always yields a record.) -/
def undo_all (osOk : Nat → Bool) (k : Nat) (fs : List String) (undo_stack : UndoStack) :
    Except FileOpError (List MoveRecord) × List String × UndoStack :=
  if undo_stack.is_empty then (.ok [], fs, undo_stack)
  else
    match h2 : undo_last (osOk k) fs undo_stack with
    | (.ok (some record), fs', st') =>
      match undo_all osOk (k + 1) fs' st' with
      | (.ok undone, fs'', st'') => (.ok (record :: undone), fs'', st'')
      | (.error e, fs'', st'') => (.error e, fs'', st'')
    | (.ok none, fs', st') => (.ok [], fs', st')
    | (.error e, fs', st') => (.error e, fs', st')
termination_by undo_stack.records.length
decreasing_by exact undo_last_ok_some_shrinks _ _ _ _ _ _ h2

/-- A stack whose history file mirrors its records (holds for freshly
constructed stacks and is preserved by every operation). -/
def UndoStack.synced (st : UndoStack) : Prop :=
  loadHistory st.disk = st.records

theorem synced_init (disk : HistoryFile) : (UndoStack.init disk).synced := rfl

theorem synced_push (st : UndoStack) (r : MoveRecord) : (st.push r).synced := rfl

theorem synced_clear (st : UndoStack) : st.clear.synced := rfl

theorem synced_pop (st : UndoStack) (h : st.synced) : (st.pop).2.synced := by
  unfold UndoStack.pop
  cases hg : st.records.getLast? with
  | none => exact h
  | some r => rfl

/-! ### Claim C9 -/

/-- C9: constructing an `UndoStack` on a missing or corrupt history file
yields an empty stack without raising (the embedding is a total function —
the `except` branch of `_load` absorbs the decode error); a valid history
file yields exactly the recorded list. -/
theorem C9_init_spec :
    (UndoStack.init .missing).records = [] ∧
      (UndoStack.init .corrupt).records = [] ∧
      ∀ records : List MoveRecord, (UndoStack.init (.valid records)).records = records :=
  ⟨rfl, rfl, fun _ => rfl⟩

/-! ### Claim C7 -/

/-- A push/pop/clear mutation applied to an `UndoStack`. -/
inductive StackOp where
  | push : MoveRecord → StackOp
  | pop : StackOp
  | clear : StackOp

def applyOp (st : UndoStack) : StackOp → UndoStack
  | .push r => st.push r
  | .pop => (st.pop).2
  | .clear => st.clear

def applyOps (st : UndoStack) (ops : List StackOp) : UndoStack :=
  ops.foldl applyOp st

theorem synced_applyOps (st : UndoStack) (ops : List StackOp) (h : st.synced) :
    (applyOps st ops).synced := by
  induction ops generalizing st with
  | nil => exact h
  | cons op rest ih =>
    apply ih
    cases op with
    | push r => exact synced_push st r
    | pop => exact synced_pop st h
    | clear => exact synced_clear st

/-- C7: after any sequence of push/pop/clear mutations, constructing a fresh
`UndoStack` bound to the same history file (a restart) reproduces the
records, equal and in the same order. -/
theorem C7_round_trip (disk : HistoryFile) (ops : List StackOp) :
    (UndoStack.init (applyOps (UndoStack.init disk) ops).disk).records =
      (applyOps (UndoStack.init disk) ops).records :=
  synced_applyOps (UndoStack.init disk) ops (synced_init disk)

/-! ### Claim C8 -/

/-- C8: `push r` immediately followed by `pop` returns `r` and restores the
previous records, and after each mutating operation (`push`, `pop`, `clear`)
the number of records persisted in the history file equals the in-memory
length (for `pop` this needs the stack to have been in sync, which holds for
every reachable stack by `synced_applyOps`). -/
theorem C8_push_pop_spec (st : UndoStack) (r : MoveRecord) (hs : st.synced) :
    ((st.push r).pop).1 = some r ∧
      ((st.push r).pop).2.records = st.records ∧
      (loadHistory (st.push r).disk).length = (st.push r).records.length ∧
      (loadHistory (st.pop).2.disk).length = (st.pop).2.records.length ∧
      (loadHistory st.clear.disk).length = st.clear.records.length := by
  refine ⟨?_, ?_, ?_, ?_, ?_⟩
  · simp [UndoStack.push, UndoStack.pop, UndoStack.save]
  · simp [UndoStack.push, UndoStack.pop, UndoStack.save]
  · rfl
  · rw [synced_pop st hs]
  · rfl

/-- C8, witness for `C8_push_pop_spec` on a concrete synced stack. -/
theorem C8_push_pop_spec_witness :
    ((UndoStack.init (.valid [MoveRecord.create "a" "b" "t0"])).push
          (MoveRecord.create "c" "d" "t1")).pop.1 =
        some (MoveRecord.create "c" "d" "t1") ∧
      ((UndoStack.init (.valid [MoveRecord.create "a" "b" "t0"])).push
          (MoveRecord.create "c" "d" "t1")).pop.2.records =
        (UndoStack.init (.valid [MoveRecord.create "a" "b" "t0"])).records := by
  have h := C8_push_pop_spec (UndoStack.init (.valid [MoveRecord.create "a" "b" "t0"]))
    (MoveRecord.create "c" "d" "t1") rfl
  exact ⟨h.1, h.2.1⟩

/-! ### Claim C10 -/

/-- C10: on an empty stack, `undo_last` returns `None` without error, without
touching the filesystem and without changing the stack (popping an empty
stack does not even rewrite the history file). -/
theorem C10_undo_last_empty (osOk : Bool) (fs : List String) (st : UndoStack)
    (h : st.records = []) :
    undo_last osOk fs st = (.ok none, fs, st) := by
  unfold undo_last UndoStack.pop
  rw [h]
  rfl

/-- C10, witness. -/
theorem C10_undo_last_empty_witness :
    undo_last true ["f"] (UndoStack.init .missing) =
      (.ok none, ["f"], UndoStack.init .missing) :=
  C10_undo_last_empty true ["f"] (UndoStack.init .missing) rfl

/-! ### Claim C2 -/

theorem dropLast_concat_getLast? (l : List MoveRecord) (r : MoveRecord)
    (h : l.getLast? = some r) : l.dropLast ++ [r] = l := by
  induction l with
  | nil => simp at h
  | cons a t ih =>
    cases t with
    | nil =>
      simp at h
      simp [h]
    | cons b t' =>
      rw [List.getLast?_cons_cons] at h
      have := ih h
      simp only [List.dropLast_cons₂, List.cons_append, this]

/-- Full case analysis of `undo_last` on a non-empty stack: the two
precondition failures leave the record popped (not restored); only the
`OSError` branch pushes it back. -/
theorem undo_last_spec_cases (osOk : Bool) (fs : List String) (st : UndoStack)
    (r : MoveRecord) (hr : st.records.getLast? = some r) :
    (fsExists fs r.dst = false →
        undo_last osOk fs st =
          (.error .undoMovedFileMissing, fs,
            ⟨st.records.dropLast, .valid st.records.dropLast⟩)) ∧
      (fsExists fs r.dst = true → fsExists fs r.src = true →
        undo_last osOk fs st =
          (.error .undoSourceOccupied, fs,
            ⟨st.records.dropLast, .valid st.records.dropLast⟩)) ∧
      (fsExists fs r.dst = true → fsExists fs r.src = false → osOk = false →
        undo_last osOk fs st =
          (.error .undoMoveFailed, fs, ⟨st.records, .valid st.records⟩)) ∧
      (fsExists fs r.dst = true → fsExists fs r.src = false → osOk = true →
        undo_last osOk fs st =
          (.ok (some r), fsMove fs r.dst r.src,
            ⟨st.records.dropLast, .valid st.records.dropLast⟩)) := by
  refine ⟨?_, ?_, ?_, ?_⟩
  · intro h1
    simp [undo_last, UndoStack.pop, hr, h1, UndoStack.save]
  · intro h1 h2
    simp [undo_last, UndoStack.pop, hr, h1, h2, UndoStack.save]
  · intro h1 h2 h3
    subst h3
    simp [undo_last, UndoStack.pop, hr, h1, h2, UndoStack.save, UndoStack.push,
      dropLast_concat_getLast? st.records r hr]
  · intro h1 h2 h3
    simp [undo_last, UndoStack.pop, hr, h1, h2, h3, UndoStack.save]

theorem undo_last_ok_some_eq (osOk : Bool) (fs : List String) (st : UndoStack)
    (r : MoveRecord) (fs' : List String) (st' : UndoStack)
    (h : undo_last osOk fs st = (.ok (some r), fs', st')) :
    st.records.getLast? = some r ∧ st'.records = st.records.dropLast := by
  unfold undo_last UndoStack.pop at h
  cases hg : st.records.getLast? with
  | none =>
    rw [hg] at h
    simp at h
  | some rec =>
    rw [hg] at h
    simp only at h
    split at h
    · simp at h
    split at h
    · simp at h
    split at h
    · simp only [Prod.mk.injEq, Except.ok.injEq, Option.some.injEq] at h
      refine ⟨congrArg some h.1, ?_⟩
      rw [← h.2.2]
      rfl
    · simp at h

theorem undo_last_error_eq (osOk : Bool) (fs : List String) (st : UndoStack)
    (e : FileOpError) (fs' : List String) (st' : UndoStack)
    (h : undo_last osOk fs st = (.error e, fs', st')) :
    st.records ≠ [] ∧ fs' = fs ∧
      (((e = .undoMovedFileMissing ∨ e = .undoSourceOccupied) ∧
          st'.records = st.records.dropLast) ∨
        (e = .undoMoveFailed ∧ st'.records = st.records)) := by
  unfold undo_last UndoStack.pop at h
  cases hg : st.records.getLast? with
  | none =>
    rw [hg] at h
    simp at h
  | some rec =>
    have hne : st.records ≠ [] := by
      intro hnil
      rw [hnil] at hg
      simp at hg
    rw [hg] at h
    simp only at h
    split at h
    · simp only [Prod.mk.injEq, Except.error.injEq] at h
      refine ⟨hne, h.2.1.symm, Or.inl ⟨Or.inl h.1.symm, ?_⟩⟩
      rw [← h.2.2]
      rfl
    split at h
    · simp only [Prod.mk.injEq, Except.error.injEq] at h
      refine ⟨hne, h.2.1.symm, Or.inl ⟨Or.inr h.1.symm, ?_⟩⟩
      rw [← h.2.2]
      rfl
    split at h
    · simp at h
    · simp only [Prod.mk.injEq, Except.error.injEq] at h
      refine ⟨hne, h.2.1.symm, Or.inr ⟨h.1.symm, ?_⟩⟩
      rw [← h.2.2]
      show st.records.dropLast ++ [rec] = st.records
      exact dropLast_concat_getLast? st.records rec hg

theorem undo_all_error_take (osOk : Nat → Bool) (k : Nat) (fs : List String)
    (st : UndoStack) (e : FileOpError) (fs' : List String) (st' : UndoStack)
    (h : undo_all osOk k fs st = (.error e, fs', st')) :
    ∃ n ≤ st.records.length, st'.records = st.records.take n ∧
      (e = .undoMoveFailed → 0 < n) ∧
      ((e = .undoMovedFileMissing ∨ e = .undoSourceOccupied) →
        n < st.records.length) := by
  generalize hlen : st.records.length = len
  induction len using Nat.strong_induction_on generalizing k fs st fs' st' with
  | _ len ih =>
    rw [undo_all] at h
    split at h
    · simp at h
    rename_i hemp
    have hne : st.records ≠ [] := by
      intro hnil
      simp [UndoStack.is_empty, hnil] at hemp
    split at h
    · rename_i rec fs1 st1 hu
      split at h
      · simp at h
      · rename_i e2 fs2 st2 hrec
        simp only [Prod.mk.injEq, Except.error.injEq] at h
        obtain ⟨he, hfs, hst⟩ := h
        rw [he, hfs, hst] at hrec
        have hok := undo_last_ok_some_eq _ _ _ _ _ _ hu
        have hlen1 : st1.records.length = len - 1 := by
          rw [hok.2, List.length_dropLast, hlen]
        have hlpos : 0 < len := by
          rw [← hlen]
          exact List.length_pos.mpr hne
        obtain ⟨n, hn, htake, hmf, hpre⟩ :=
          ih (len - 1) (by omega) (k + 1) fs1 st1 fs' st' hrec hlen1
        refine ⟨n, by omega, ?_, hmf, fun hp => by have := hpre hp; omega⟩
        rw [htake, hok.2, List.dropLast_eq_take, List.take_take]
        congr 1
        omega
    · simp at h
    · rename_i e1 fs1 st1 hu
      simp only [Prod.mk.injEq, Except.error.injEq] at h
      obtain ⟨he, hfs, hst⟩ := h
      have herr := undo_last_error_eq _ _ _ _ _ _ hu
      rw [he, hst] at herr
      have hlpos : 0 < len := by
        rw [← hlen]
        exact List.length_pos.mpr herr.1
      rcases herr.2.2 with ⟨hekind, hrec⟩ | ⟨hekind, hrec⟩
      · refine ⟨len - 1, by omega, ?_, ?_, fun _ => by omega⟩
        · rw [hrec, List.dropLast_eq_take, hlen]
        · intro hcontra
          rw [hcontra] at hekind
          rcases hekind with h' | h' <;> exact absurd h' (by decide)
      · refine ⟨len, le_refl len, ?_, fun _ => hlpos, ?_⟩
        · rw [hrec, ← hlen, List.take_length]
        · intro hcontra
          rw [hekind] at hcontra
          rcases hcontra with h' | h' <;> exact absurd h' (by decide)

/-- C2, counterexample: a one-record stack whose recorded destination no
longer exists.  `undo_last` raises, but the record is *not* pushed back: the
stack is left empty, not with its previous contents (the compensating
push-back exists only in the `except OSError` branch of the source). -/
theorem C2_counterexample :
    (undo_last true []
          ⟨[MoveRecord.create "s" "d" "t0"], .valid [MoveRecord.create "s" "d" "t0"]⟩).1 =
        .error .undoMovedFileMissing ∧
      (undo_last true []
          ⟨[MoveRecord.create "s" "d" "t0"],
            .valid [MoveRecord.create "s" "d" "t0"]⟩).2.2.records ≠
        [MoveRecord.create "s" "d" "t0"] := by
  refine ⟨rfl, ?_⟩
  decide

/-- C2 (amended): when the top record of a non-empty undo stack fails to
undo, the popped record is pushed back — preserving the stack's contents —
*only* when the underlying filesystem move itself fails (`OSError`); when the
recorded destination is missing or the recorded source is occupied, the error
propagates with the record already popped and not restored, so the stack has
lost its top record.  Consequently, when `undo_all` stops on a failure the
remaining stack is the untouched bottom part of the original records, and it
still contains the failing record only in the filesystem-move-failure case
(for the two precondition failures the failing record is gone). -/
theorem C2_undo_failure_spec :
    (∀ (osOk : Bool) (fs : List String) (st : UndoStack) (r : MoveRecord),
      st.records.getLast? = some r →
        (fsExists fs r.dst = false →
          undo_last osOk fs st =
            (.error .undoMovedFileMissing, fs,
              ⟨st.records.dropLast, .valid st.records.dropLast⟩)) ∧
        (fsExists fs r.dst = true → fsExists fs r.src = true →
          undo_last osOk fs st =
            (.error .undoSourceOccupied, fs,
              ⟨st.records.dropLast, .valid st.records.dropLast⟩)) ∧
        (fsExists fs r.dst = true → fsExists fs r.src = false → osOk = false →
          undo_last osOk fs st =
            (.error .undoMoveFailed, fs, ⟨st.records, .valid st.records⟩))) ∧
      (∀ (osOk : Nat → Bool) (k : Nat) (fs : List String) (st : UndoStack)
          (e : FileOpError) (fs' : List String) (st' : UndoStack),
        undo_all osOk k fs st = (.error e, fs', st') →
          ∃ n ≤ st.records.length, st'.records = st.records.take n ∧
            (e = .undoMoveFailed → 0 < n) ∧
            ((e = .undoMovedFileMissing ∨ e = .undoSourceOccupied) →
              n < st.records.length)) := by
  constructor
  · intro osOk fs st r hr
    have h := undo_last_spec_cases osOk fs st r hr
    exact ⟨h.1, h.2.1, h.2.2.1⟩
  · intro osOk k fs st e fs' st' h
    exact undo_all_error_take osOk k fs st e fs' st' h

/-- C2, witness for `C2_undo_failure_spec`: the `OSError` branch on a
concrete one-record stack does push the record back, leaving the records
unchanged. -/
theorem C2_undo_failure_spec_witness :
    undo_last false ["d"]
        ⟨[MoveRecord.create "s" "d" "t0"], .valid [MoveRecord.create "s" "d" "t0"]⟩ =
      (.error .undoMoveFailed, ["d"],
        ⟨[MoveRecord.create "s" "d" "t0"], .valid [MoveRecord.create "s" "d" "t0"]⟩) :=
  (C2_undo_failure_spec.1 false ["d"]
      ⟨[MoveRecord.create "s" "d" "t0"], .valid [MoveRecord.create "s" "d" "t0"]⟩
      (MoveRecord.create "s" "d" "t0") rfl).2.2 (by decide) (by decide) rfl

/-! ### Claim C6 -/

/-- C6: `safe_move` rejects a missing source (`SourceNotFound`) and an
existing destination (`DestinationExists`) with no filesystem mutation and no
stack change; when both preconditions hold, the record is appended only if
the move syscall succeeds (`osOk = true`), and the pushed stack is persisted
(its history file holds exactly its records) before `safe_move` returns; a
failing syscall surfaces as the generic `moveFailed` with the stack
untouched. -/
theorem C6_safe_move_spec (src dst timestamp : String) (osOk : Bool)
    (fs : List String) (st : UndoStack) :
    (fsExists fs src = false →
        safe_move src dst timestamp osOk fs st = (.error .sourceNotFound, fs, st)) ∧
      (fsExists fs src = true → fsExists fs dst = true →
        safe_move src dst timestamp osOk fs st = (.error .destinationExists, fs, st)) ∧
      (fsExists fs src = true → fsExists fs dst = false → osOk = false →
        safe_move src dst timestamp osOk fs st = (.error .moveFailed, fs, st)) ∧
      (fsExists fs src = true → fsExists fs dst = false → osOk = true →
        safe_move src dst timestamp osOk fs st =
            (.ok (), fsMove fs src dst, st.push (MoveRecord.create src dst timestamp)) ∧
          (st.push (MoveRecord.create src dst timestamp)).disk =
            .valid (st.push (MoveRecord.create src dst timestamp)).records) := by
  refine ⟨?_, ?_, ?_, ?_⟩
  · intro h1
    simp [safe_move, h1]
  · intro h1 h2
    simp [safe_move, h1, h2]
  · intro h1 h2 h3
    simp [safe_move, h1, h2, h3]
  · intro h1 h2 h3
    refine ⟨by simp [safe_move, h1, h2, h3], rfl⟩

/-- C6, witness for `C6_safe_move_spec`, exercising the success case on a
concrete filesystem. -/
theorem C6_safe_move_spec_witness :
    safe_move "a" "b" "t0" true ["a"] (UndoStack.init .missing) =
      (.ok (), fsMove ["a"] "a" "b",
        (UndoStack.init .missing).push (MoveRecord.create "a" "b" "t0")) :=
  ((C6_safe_move_spec "a" "b" "t0" true ["a"] (UndoStack.init .missing)).2.2.2
    (by decide) (by decide) rfl).1

/-! ## `UnionFind` (dedup.py, lines 271–297)

The Python dicts `_parent`/`_rank` are insertion-ordered association lists;
`setEntry` is the dict assignment (update in place, or append a new key at the
end).  `find`'s recursion is driven by an explicit fuel: the Python recursion
terminates because the parent map is an acyclic forest, and
`parent.length + 1` dominates every parent-chain length for well-formed states
(`reachesN_height_le` below), so the fuel is never exhausted where `find` is
actually used.
-/

def setEntry {α : Type} (k : String) (v : α) : List (String × α) → List (String × α)
  | [] => [(k, v)]
  | (k', v') :: rest => if k' = k then (k, v) :: rest else (k', v') :: setEntry k v rest

theorem lookup_setEntry_self {α : Type} (k : String) (v : α) (l : List (String × α)) :
    (setEntry k v l).lookup k = some v := by
  induction l with
  | nil => simp [setEntry, List.lookup]
  | cons hd rest ih =>
    cases hd with
    | mk k' v' =>
      by_cases h : k' = k
      · simp [setEntry, h, List.lookup]
      · simp only [setEntry, h, if_false, List.lookup]
        have : (k == k') = false := by
          rw [beq_eq_false_iff_ne]
          exact fun hk => h hk.symm
        rw [this]
        exact ih

theorem lookup_setEntry_ne {α : Type} (k : String) (v : α) (l : List (String × α))
    (y : String) (h : y ≠ k) : (setEntry k v l).lookup y = l.lookup y := by
  induction l with
  | nil =>
    simp only [setEntry, List.lookup, List.lookup_nil]
    have : (y == k) = false := by
      rw [beq_eq_false_iff_ne]
      exact h
    rw [this]
  | cons hd rest ih =>
    cases hd with
    | mk k' v' =>
      by_cases hk : k' = k
      · subst hk
        simp only [setEntry, if_true, List.lookup]
        have : (y == k') = false := by
          rw [beq_eq_false_iff_ne]
          exact h
        rw [this]
      · simp only [setEntry, hk, if_false, List.lookup]
        cases hyk : y == k' with
        | true => rfl
        | false => exact ih

theorem lookup_setEntry_isSome {α : Type} (k : String) (v : α) (l : List (String × α))
    (y : String) (h : (l.lookup y).isSome) : ((setEntry k v l).lookup y).isSome := by
  by_cases hy : y = k
  · subst hy
    rw [lookup_setEntry_self]
    rfl
  · rw [lookup_setEntry_ne k v l y hy]
    exact h

theorem lookup_some_mem_keys {α : Type} (l : List (String × α)) (y : String) (v : α)
    (h : l.lookup y = some v) : y ∈ l.map Prod.fst := by
  induction l with
  | nil => simp at h
  | cons hd rest ih =>
    cases hd with
    | mk k w =>
      rw [List.lookup_cons] at h
      cases hyk : y == k with
      | true =>
        have : y = k := by
          rwa [beq_iff_eq] at hyk
        simp [this]
      | false =>
        rw [hyk] at h
        simp only [List.map_cons, List.mem_cons]
        exact Or.inr (ih h)

/-- `UnionFind` state: the two dicts of the Python object. -/
structure UnionFind where
  parent : List (String × String)
  rank : List (String × Nat)

/-- `UnionFind.__init__`. -/
def UnionFind.initial : UnionFind := ⟨[], []⟩

/-- `UnionFind.find` with path compression, as explicit state passing: a
missing key is initialised to be its own parent (with rank 0); otherwise the
root is found recursively and `_parent[x]` is rewritten to it. -/
def UnionFind.findAux : Nat → UnionFind → String → String × UnionFind
  | 0, uf, x => (x, uf)
  | fuel + 1, uf, x =>
    match uf.parent.lookup x with
    | none => (x, ⟨setEntry x x uf.parent, setEntry x 0 uf.rank⟩)
    | some p =>
      if p = x then (x, uf)
      else
        let res := UnionFind.findAux fuel uf p
        (res.1, ⟨setEntry x res.1 res.2.parent, res.2.rank⟩)

def UnionFind.find (uf : UnionFind) (x : String) : String × UnionFind :=
  UnionFind.findAux (uf.parent.length + 1) uf x

/-- `self._rank[r]` (always initialised by `find` where the source reads it;
`getD 0` keeps the embedding total). -/
def UnionFind.rankOf (uf : UnionFind) (x : String) : Nat :=
  (uf.rank.lookup x).getD 0

/-- `UnionFind.union`: union by rank of the two roots. -/
def UnionFind.union (uf : UnionFind) (x y : String) : UnionFind :=
  let fx := uf.find x
  let fy := fx.2.find y
  let uf2 := fy.2
  if fx.1 = fy.1 then uf2
  else
    let rp := if uf2.rankOf fx.1 < uf2.rankOf fy.1 then (fy.1, fx.1) else (fx.1, fy.1)
    let uf3 : UnionFind := ⟨setEntry rp.2 rp.1 uf2.parent, uf2.rank⟩
    if uf3.rankOf rp.1 = uf3.rankOf rp.2 then
      ⟨uf3.parent, setEntry rp.1 (uf3.rankOf rp.1 + 1) uf3.rank⟩
    else uf3

/-- Following parent links from `x` ends at the root `r` (missing keys and
self-loops are roots). -/
inductive Reaches (par : List (String × String)) : String → String → Prop where
  | missing (x : String) (h : par.lookup x = none) : Reaches par x x
  | root (x : String) (h : par.lookup x = some x) : Reaches par x x
  | step (x p r : String) (h : par.lookup x = some p) (hne : p ≠ x)
      (hr : Reaches par p r) : Reaches par x r

/-- `Reaches` with the height of the parent chain made explicit. -/
inductive ReachesN (par : List (String × String)) : String → String → Nat → Prop where
  | missing (x : String) (h : par.lookup x = none) : ReachesN par x x 1
  | root (x : String) (h : par.lookup x = some x) : ReachesN par x x 1
  | step (x p r : String) (n : Nat) (h : par.lookup x = some p) (hne : p ≠ x)
      (hr : ReachesN par p r n) : ReachesN par x r (n + 1)

theorem reachesN_reaches {par : List (String × String)} {x r : String} {n : Nat}
    (h : ReachesN par x r n) : Reaches par x r := by
  induction h with
  | missing x h => exact .missing x h
  | root x h => exact .root x h
  | step x p r n h hne _ ih => exact .step x p r h hne ih

theorem reaches_det {par : List (String × String)} {x r1 r2 : String}
    (h1 : Reaches par x r1) (h2 : Reaches par x r2) : r1 = r2 := by
  induction h1 generalizing r2 with
  | missing x h =>
    cases h2 with
    | missing _ _ => rfl
    | root _ h' => simp [h] at h'
    | step _ p _ h' hne _ => simp [h] at h'
  | root x h =>
    cases h2 with
    | missing _ h' => simp [h] at h'
    | root _ _ => rfl
    | step _ p _ h' hne _ =>
      rw [h] at h'
      exact absurd (Option.some.inj h').symm hne
  | step x p r h hne hr ih =>
    cases h2 with
    | missing _ h' => simp [h] at h'
    | root _ h' =>
      rw [h] at h'
      exact absurd (Option.some.inj h') hne
    | step _ p' _ h' hne' hr' =>
      rw [h] at h'
      have hpp : p = p' := Option.some.inj h'
      rw [← hpp] at hr'
      exact ih hr'

theorem reaches_root_self {par : List (String × String)} {x r : String}
    (h : Reaches par x r) : Reaches par r r := by
  induction h with
  | missing x h => exact .missing x h
  | root x h => exact .root x h
  | step x p r _ _ _ ih => exact ih

/-- Every parent-link target of a non-root entry is itself a key. -/
def Closed (par : List (String × String)) : Prop :=
  ∀ x p, par.lookup x = some p → p ≠ x → ∃ q, par.lookup p = some q

/-- The forest invariant: links are closed and strictly decrease some depth
measure (hence are acyclic). -/
def ParWF (par : List (String × String)) : Prop :=
  Closed par ∧ ∃ depth : String → Nat, ∀ x p, par.lookup x = some p → p ≠ x →
    depth p < depth x

theorem parWF_nil : ParWF [] := by
  refine ⟨fun x p h => by simp at h, fun _ => 0, fun x p h => by simp at h⟩

theorem reaches_depth_le {par : List (String × String)} (depth : String → Nat)
    (hdepth : ∀ x p, par.lookup x = some p → p ≠ x → depth p < depth x)
    {x r : String} (h : Reaches par x r) : depth r ≤ depth x := by
  induction h with
  | missing x h => exact le_refl _
  | root x h => exact le_refl _
  | step x p r h hne _ ih =>
    have := hdepth x p h hne
    omega

theorem reaches_ne_root {par : List (String × String)} (depth : String → Nat)
    (hdepth : ∀ x p, par.lookup x = some p → p ≠ x → depth p < depth x)
    {x p r : String} (h : par.lookup x = some p) (hne : p ≠ x)
    (hr : Reaches par p r) : r ≠ x := by
  intro hrx
  have h1 := reaches_depth_le depth hdepth hr
  have h2 := hdepth x p h hne
  rw [hrx] at h1
  omega

theorem reaches_root_key {par : List (String × String)} (hc : Closed par)
    {x r : String} (h : Reaches par x r) (hne : x ≠ r) :
    ∃ q, par.lookup r = some q := by
  induction h with
  | missing x h => exact absurd rfl hne
  | root x h => exact absurd rfl hne
  | step x p r h hpx hr ih =>
    by_cases hpr : p = r
    · subst hpr
      exact hc x p h hpx
    · exact ih hpr

theorem reachesN_exists {par : List (String × String)} (inv : ParWF par) (x : String) :
    ∃ r n, ReachesN par x r n := by
  obtain ⟨_, depth, hdepth⟩ := inv
  generalize hd : depth x = dx
  induction dx using Nat.strong_induction_on generalizing x with
  | _ dx ih =>
    cases hl : par.lookup x with
    | none => exact ⟨x, 1, .missing x hl⟩
    | some p =>
      by_cases hpx : p = x
      · exact ⟨x, 1, .root x (hpx ▸ hl)⟩
      · have hlt : depth p < dx := hd ▸ hdepth x p hl hpx
        obtain ⟨r, n, hr⟩ := ih (depth p) hlt p rfl
        exact ⟨r, n + 1, .step x p r n hl hpx hr⟩

theorem reachesN_chain {par : List (String × String)} (depth : String → Nat)
    (hdepth : ∀ x p, par.lookup x = some p → p ≠ x → depth p < depth x)
    {x r : String} {n : Nat} (h : ReachesN par x r n) :
    ∃ l : List String, l.length + 1 = n ∧ l.Nodup ∧
      (∀ y ∈ l, ∃ py, par.lookup y = some py) ∧ (∀ y ∈ l, depth y ≤ depth x) := by
  induction h with
  | missing x h => exact ⟨[], rfl, by simp, by simp, by simp⟩
  | root x h => exact ⟨[], rfl, by simp, by simp, by simp⟩
  | step x p r n h hne hr ih =>
    obtain ⟨l, hlen, hnodup, hkeys, hdep⟩ := ih
    have hplt : depth p < depth x := hdepth x p h hne
    refine ⟨x :: l, by simp [hlen.symm], ?_, ?_, ?_⟩
    · refine List.nodup_cons.mpr ⟨fun hmem => ?_, hnodup⟩
      have := hdep x hmem
      omega
    · intro y hy
      rcases List.mem_cons.mp hy with rfl | hy
      · exact ⟨p, h⟩
      · exact hkeys y hy
    · intro y hy
      rcases List.mem_cons.mp hy with rfl | hy
      · exact le_refl _
      · have := hdep y hy
        omega

theorem reachesN_height_le {uf : UnionFind} (inv : ParWF uf.parent)
    {x r : String} {n : Nat} (h : ReachesN uf.parent x r n) :
    n ≤ uf.parent.length + 1 := by
  obtain ⟨_, depth, hdepth⟩ := inv
  obtain ⟨l, hlen, hnodup, hkeys, _⟩ := reachesN_chain depth hdepth h
  have hsub : l ⊆ uf.parent.map Prod.fst := by
    intro y hy
    obtain ⟨py, hpy⟩ := hkeys y hy
    exact lookup_some_mem_keys uf.parent y py hpy
  have hcard : l.length ≤ uf.parent.length := by
    calc l.length = l.toFinset.card := (List.toFinset_card_of_nodup hnodup).symm
      _ ≤ (uf.parent.map Prod.fst).toFinset.card := by
          apply Finset.card_le_card
          intro a ha
          rw [List.mem_toFinset] at ha ⊢
          exact hsub ha
      _ ≤ (uf.parent.map Prod.fst).length := List.toFinset_card_le _
      _ = uf.parent.length := List.length_map _ _
  omega

/-- Two parent maps inducing the same root relation. -/
def SamePart (par par' : List (String × String)) : Prop :=
  ∀ y s, Reaches par y s ↔ Reaches par' y s

/-- `a` and `b` lie in the same tree. -/
def SameRoot (par : List (String × String)) (a b : String) : Prop :=
  ∃ r, Reaches par a r ∧ Reaches par b r

theorem samePart_refl (par : List (String × String)) : SamePart par par :=
  fun _ _ => Iff.rfl

theorem samePart_trans {p1 p2 p3 : List (String × String)}
    (h1 : SamePart p1 p2) (h2 : SamePart p2 p3) : SamePart p1 p3 :=
  fun y s => (h1 y s).trans (h2 y s)

theorem samePart_sameRoot {par par' : List (String × String)} (h : SamePart par par')
    {a b : String} (hr : SameRoot par a b) : SameRoot par' a b := by
  obtain ⟨r, h1, h2⟩ := hr
  exact ⟨r, (h a r).mp h1, (h b r).mp h2⟩

/-- Inserting a self-loop for a fresh key does not change the root relation. -/
theorem samePart_insert_fresh {par : List (String × String)} {x : String}
    (hx : par.lookup x = none) : SamePart par (setEntry x x par) := by
  intro y s
  constructor
  · intro h
    induction h with
    | missing y h =>
      by_cases hyx : y = x
      · subst hyx
        exact .root y (lookup_setEntry_self y y par)
      · exact .missing y (by rw [lookup_setEntry_ne x x par y hyx]; exact h)
    | root y h =>
      have hyx : y ≠ x := fun hyx => by rw [hyx, hx] at h; exact absurd h (by simp)
      exact .root y (by rw [lookup_setEntry_ne x x par y hyx]; exact h)
    | step y p r h hne hr ih =>
      have hyx : y ≠ x := fun hyx => by rw [hyx, hx] at h; exact absurd h (by simp)
      exact .step y p r (by rw [lookup_setEntry_ne x x par y hyx]; exact h) hne ih
  · intro h
    induction h with
    | missing y h =>
      by_cases hyx : y = x
      · subst hyx
        rw [lookup_setEntry_self] at h
        exact absurd h (by simp)
      · rw [lookup_setEntry_ne x x par y hyx] at h
        exact .missing y h
    | root y h =>
      by_cases hyx : y = x
      · subst hyx
        exact .missing y hx
      · rw [lookup_setEntry_ne x x par y hyx] at h
        exact .root y h
    | step y p r h hne hr ih =>
      by_cases hyx : y = x
      · subst hyx
        rw [lookup_setEntry_self] at h
        have : p = y := (Option.some.inj h).symm
        exact absurd this hne
      · rw [lookup_setEntry_ne x x par y hyx] at h
        exact .step y p r h hne ih

theorem parWF_insert_fresh {par : List (String × String)} {x : String}
    (hx : par.lookup x = none) (hwf : ParWF par) : ParWF (setEntry x x par) := by
  obtain ⟨hc, depth, hdepth⟩ := hwf
  constructor
  · intro y p h hne
    by_cases hyx : y = x
    · subst hyx
      rw [lookup_setEntry_self] at h
      exact absurd (Option.some.inj h).symm hne
    · rw [lookup_setEntry_ne x x par y hyx] at h
      obtain ⟨q, hq⟩ := hc y p h hne
      have hpx : p ≠ x := fun hpx => by rw [hpx, hx] at hq; exact absurd hq (by simp)
      exact ⟨q, by rw [lookup_setEntry_ne x x par p hpx]; exact hq⟩
  · refine ⟨depth, fun y p h hne => ?_⟩
    by_cases hyx : y = x
    · subst hyx
      rw [lookup_setEntry_self] at h
      exact absurd (Option.some.inj h).symm hne
    · rw [lookup_setEntry_ne x x par y hyx] at h
      exact hdepth y p h hne

/-- Under the forest invariant a root's entry is absent or a self-loop. -/
theorem reaches_self_lookup {par : List (String × String)} (hwf : ParWF par)
    {a b : String} (h : Reaches par a b) (hab : b = a) :
    par.lookup a = none ∨ par.lookup a = some a := by
  cases h with
  | missing _ h0 => exact Or.inl h0
  | root _ h0 => exact Or.inr h0
  | step _ p _ h0 hp0 hr0 =>
    obtain ⟨_, depth, hdepth⟩ := hwf
    have h1 := hdepth a p h0 hp0
    have h2 := reaches_depth_le depth hdepth hr0
    rw [hab] at h2
    omega

/-- Path compression: rewriting `x`'s link directly to its root preserves the
root relation. -/
theorem samePart_compress {par : List (String × String)} {x r : String}
    (hwf : ParWF par) (hxr : Reaches par x r) (hne : x ≠ r) :
    SamePart par (setEntry x r par) := by
  have hxkey : ∃ p, par.lookup x = some p := by
    cases hxr with
    | missing _ h => exact absurd rfl hne
    | root _ h => exact absurd rfl hne
    | step _ p _ h _ _ => exact ⟨p, h⟩
  have hrootkey : ∃ q, par.lookup r = some q := reaches_root_key hwf.1 hxr hne
  have hrootself : Reaches par r r := reaches_root_self hxr
  have hrootloop : par.lookup r = some r := by
    rcases reaches_self_lookup hwf hrootself rfl with h0 | h0
    · obtain ⟨q, hq⟩ := hrootkey
      rw [h0] at hq
      exact absurd hq (by simp)
    · exact h0
  have hrootself' : Reaches (setEntry x r par) r r :=
    .root r (by rw [lookup_setEntry_ne x r par r (fun h' => hne h'.symm)]; exact hrootloop)
  have hxr' : Reaches (setEntry x r par) x r :=
    .step x r r (lookup_setEntry_self x r par) (fun h => hne h.symm) hrootself'
  intro y s
  constructor
  · intro h
    induction h with
    | missing y h =>
      have hyx : y ≠ x := by
        intro hyx
        obtain ⟨p, hp⟩ := hxkey
        rw [hyx, hp] at h
        exact absurd h (by simp)
      exact .missing y (by rw [lookup_setEntry_ne x r par y hyx]; exact h)
    | root y h =>
      by_cases hyx : y = x
      · subst hyx
        have : Reaches par y y := .root y h
        exact absurd (reaches_det this hxr) hne
      · exact .root y (by rw [lookup_setEntry_ne x r par y hyx]; exact h)
    | step y p s h hp hr ih =>
      by_cases hyx : y = x
      · subst hyx
        have : Reaches par y s := .step y p s h hp hr
        have hs : s = r := reaches_det this hxr
        subst hs
        exact hxr'
      · exact .step y p s (by rw [lookup_setEntry_ne x r par y hyx]; exact h) hp ih
  · intro h
    induction h with
    | missing y h =>
      have hyx : y ≠ x := by
        intro hyx
        rw [hyx, lookup_setEntry_self] at h
        exact absurd h (by simp)
      rw [lookup_setEntry_ne x r par y hyx] at h
      exact .missing y h
    | root y h =>
      by_cases hyx : y = x
      · subst hyx
        rw [lookup_setEntry_self] at h
        exact absurd (Option.some.inj h).symm hne
      · rw [lookup_setEntry_ne x r par y hyx] at h
        exact .root y h
    | step y p s h hp hr ih =>
      by_cases hyx : y = x
      · subst hyx
        rw [lookup_setEntry_self] at h
        have hpr : p = r := (Option.some.inj h).symm
        rw [hpr] at hr
        have hs : s = r := reaches_det hr hrootself'
        rw [hs]
        exact hxr
      · rw [lookup_setEntry_ne x r par y hyx] at h
        exact .step y p s h hp ih

theorem parWF_compress {par : List (String × String)} {x r : String}
    (hwf : ParWF par) (hxr : Reaches par x r) (hne : x ≠ r) :
    ParWF (setEntry x r par) := by
  have hrootkey : ∃ q, par.lookup r = some q := reaches_root_key hwf.1 hxr hne
  obtain ⟨hc, depth, hdepth⟩ := hwf
  constructor
  · intro y p h hpy
    by_cases hyx : y = x
    · rw [hyx, lookup_setEntry_self] at h
      have hpr : p = r := (Option.some.inj h).symm
      obtain ⟨q, hq⟩ := hrootkey
      by_cases hpx : p = x
      · refine ⟨r, ?_⟩
        rw [hpx]
        exact lookup_setEntry_self x r par
      · refine ⟨q, ?_⟩
        rw [lookup_setEntry_ne x r par p hpx, hpr]
        exact hq
    · rw [lookup_setEntry_ne x r par y hyx] at h
      obtain ⟨q, hq⟩ := hc y p h hpy
      by_cases hpx : p = x
      · refine ⟨r, ?_⟩
        rw [hpx]
        exact lookup_setEntry_self x r par
      · refine ⟨q, ?_⟩
        rw [lookup_setEntry_ne x r par p hpx]
        exact hq
  · refine ⟨depth, fun y p h hpy => ?_⟩
    by_cases hyx : y = x
    · rw [hyx, lookup_setEntry_self] at h
      have hpr : p = r := (Option.some.inj h).symm
      cases hxr with
      | missing _ h0 => exact absurd rfl hne
      | root _ h0 => exact absurd rfl hne
      | step _ p0 _ h0 hp0 hr0 =>
        have h1 := reaches_depth_le depth hdepth hr0
        have h2 := hdepth x p0 h0 hp0
        rw [hpr, hyx]
        omega
    · rw [lookup_setEntry_ne x r par y hyx] at h
      exact hdepth y p h hpy

/-- Full specification of the fueled `findAux` on well-formed states: with
enough fuel it returns the root of `x`, preserves the forest invariant, the
root relation, existing keys and existing self-loops, and the returned root
carries a self-loop. -/
theorem findAux_spec {uf : UnionFind} (inv : ParWF uf.parent) {x r : String} {n : Nat}
    (hn : ReachesN uf.parent x r n) :
    ∀ fuel, n ≤ fuel →
      ∃ uf', UnionFind.findAux fuel uf x = (r, uf') ∧ ParWF uf'.parent ∧
        SamePart uf.parent uf'.parent ∧
        (∀ y, (uf.parent.lookup y).isSome → (uf'.parent.lookup y).isSome) ∧
        (∀ z, uf.parent.lookup z = some z → uf'.parent.lookup z = some z) ∧
        uf'.parent.lookup r = some r := by
  induction hn with
  | missing x h =>
    intro fuel hfuel
    match fuel, hfuel with
    | fuel + 1, _ =>
      refine ⟨⟨setEntry x x uf.parent, setEntry x 0 uf.rank⟩, ?_, ?_, ?_, ?_, ?_, ?_⟩
      · simp [UnionFind.findAux, h]
      · exact parWF_insert_fresh h inv
      · exact samePart_insert_fresh h
      · intro y hy
        exact lookup_setEntry_isSome x x uf.parent y hy
      · intro z hz
        have hzx : z ≠ x := fun hzx => by rw [hzx, h] at hz; exact absurd hz (by simp)
        rw [lookup_setEntry_ne x x uf.parent z hzx]
        exact hz
      · exact lookup_setEntry_self x x uf.parent
  | root x h =>
    intro fuel hfuel
    match fuel, hfuel with
    | fuel + 1, _ =>
      refine ⟨uf, ?_, inv, samePart_refl _, fun y hy => hy, fun z hz => hz, h⟩
      simp [UnionFind.findAux, h]
  | step x p r n h hne hr ih =>
    intro fuel hfuel
    match fuel, hfuel with
    | fuel + 1, hfuel =>
      obtain ⟨uf1, heq, hinv1, hsp1, hmono1, hloop1, hroot1⟩ := ih fuel (by omega)
      have hxr : Reaches uf.parent x r := .step x p r h hne (reachesN_reaches hr)
      have hrx : r ≠ x := by
        obtain ⟨_, depth, hdepth⟩ := inv
        exact reaches_ne_root depth hdepth h hne (reachesN_reaches hr)
      have hxr1 : Reaches uf1.parent x r := (hsp1 x r).mp hxr
      have hcomp := samePart_compress hinv1 hxr1 (fun hh => hrx hh.symm)
      have hinv2 := parWF_compress hinv1 hxr1 (fun hh => hrx hh.symm)
      refine ⟨⟨setEntry x r uf1.parent, uf1.rank⟩, ?_, hinv2, ?_, ?_, ?_, ?_⟩
      · simp only [UnionFind.findAux, h, hne, if_false, heq]
      · exact samePart_trans hsp1 hcomp
      · intro y hy
        exact lookup_setEntry_isSome x r uf1.parent y (hmono1 y hy)
      · intro z hz
        have hzx : z ≠ x := by
          intro hzx
          rw [hzx, h] at hz
          exact absurd (Option.some.inj hz) hne
        rw [lookup_setEntry_ne x r uf1.parent z hzx]
        exact hloop1 z hz
      · rw [lookup_setEntry_ne x r uf1.parent r hrx]
        exact hroot1

/-- `UnionFind.find` on a well-formed state: the fuel `parent.length + 1` is
always sufficient. -/
theorem find_spec {uf : UnionFind} (inv : ParWF uf.parent) (x : String) :
    ∃ r uf', uf.find x = (r, uf') ∧ Reaches uf.parent x r ∧ ParWF uf'.parent ∧
      SamePart uf.parent uf'.parent ∧
      (∀ y, (uf.parent.lookup y).isSome → (uf'.parent.lookup y).isSome) ∧
      (∀ z, uf.parent.lookup z = some z → uf'.parent.lookup z = some z) ∧
      uf'.parent.lookup r = some r := by
  obtain ⟨r, n, hn⟩ := reachesN_exists inv x
  obtain ⟨uf', heq, h1, h2, h3, h4, h5⟩ :=
    findAux_spec inv hn (uf.parent.length + 1) (reachesN_height_le inv hn)
  exact ⟨r, uf', heq, reachesN_reaches hn, h1, h2, h3, h4, h5⟩

/-- Linking root `b` under root `a` maps every old root `s` to
`if s = b then a else s`. -/
theorem reaches_link {par : List (String × String)} {a b : String}
    (hbkey : par.lookup b = some b) (hne : a ≠ b) (hakey : par.lookup a = some a) :
    ∀ {y s}, Reaches par y s → Reaches (setEntry b a par) y (if s = b then a else s) := by
  have ha' : Reaches (setEntry b a par) a a :=
    .root a (by rw [lookup_setEntry_ne b a par a hne]; exact hakey)
  have hb' : Reaches (setEntry b a par) b a :=
    .step b a a (lookup_setEntry_self b a par) hne ha'
  intro y s h
  induction h with
  | missing y h =>
    have hyb : y ≠ b := fun hyb => by rw [hyb, hbkey] at h; exact absurd h (by simp)
    rw [if_neg hyb]
    exact .missing y (by rw [lookup_setEntry_ne b a par y hyb]; exact h)
  | root y h =>
    by_cases hyb : y = b
    · rw [if_pos hyb, hyb]
      exact hb'
    · rw [if_neg hyb]
      exact .root y (by rw [lookup_setEntry_ne b a par y hyb]; exact h)
  | step y p s h hp hr ih =>
    have hyb : y ≠ b := by
      intro hyb
      rw [hyb, hbkey] at h
      rw [hyb] at hp
      exact absurd (Option.some.inj h).symm hp
    exact .step y p _ (by rw [lookup_setEntry_ne b a par y hyb]; exact h) hp ih

theorem parWF_link {par : List (String × String)} (hwf : ParWF par) {a b : String}
    (hakey : par.lookup a = some a) (hbkey : par.lookup b = some b)
    (hne : a ≠ b) : ParWF (setEntry b a par) := by
  obtain ⟨hc, depth, hdepth⟩ := hwf
  constructor
  · intro y p h hpy
    by_cases hyb : y = b
    · rw [hyb, lookup_setEntry_self] at h
      have hpa : p = a := (Option.some.inj h).symm
      refine ⟨a, ?_⟩
      rw [hpa, lookup_setEntry_ne b a par a hne]
      exact hakey
    · rw [lookup_setEntry_ne b a par y hyb] at h
      obtain ⟨q, hq⟩ := hc y p h hpy
      by_cases hpb : p = b
      · refine ⟨a, ?_⟩
        rw [hpb]
        exact lookup_setEntry_self b a par
      · refine ⟨q, ?_⟩
        rw [lookup_setEntry_ne b a par p hpb]
        exact hq
  · have hex : ∀ z, ∃ rz, Reaches par z rz := fun z => by
      obtain ⟨rz, n, hn⟩ := reachesN_exists ⟨hc, depth, hdepth⟩ z
      exact ⟨rz, reachesN_reaches hn⟩
    have hrootF : ∀ z, Reaches par z (Classical.choose (hex z)) :=
      fun z => Classical.choose_spec (hex z)
    refine ⟨fun z => if Classical.choose (hex z) = b then depth z + depth a + 1 else depth z,
      ?_⟩
    intro y p h hpy
    dsimp only
    by_cases hyb : y = b
    · rw [hyb, lookup_setEntry_self] at h
      have hpa : p = a := (Option.some.inj h).symm
      have hrb : Classical.choose (hex b) = b := reaches_det (hrootF b) (.root b hbkey)
      have hra : Classical.choose (hex a) = a := reaches_det (hrootF a) (.root a hakey)
      rw [hpa, hyb, hra, hrb, if_neg hne, if_pos rfl]
      omega
    · rw [lookup_setEntry_ne b a par y hyb] at h
      have hroots : Classical.choose (hex y) = Classical.choose (hex p) := by
        have h1 : Reaches par y (Classical.choose (hex p)) :=
          .step y p (Classical.choose (hex p)) h hpy (hrootF p)
        exact reaches_det (hrootF y) h1
      have hd := hdepth y p h hpy
      by_cases hc2 : Classical.choose (hex p) = b
      · rw [hroots, if_pos hc2, if_pos hc2]
        omega
      · rw [hroots, if_neg hc2, if_neg hc2]
        omega

theorem link_spec {par : List (String × String)} (hwf : ParWF par) {a b : String}
    (hakey : par.lookup a = some a) (hbkey : par.lookup b = some b) (hne : a ≠ b) :
    ParWF (setEntry b a par) ∧
      (∀ u v, SameRoot par u v → SameRoot (setEntry b a par) u v) ∧
      SameRoot (setEntry b a par) a b := by
  refine ⟨parWF_link hwf hakey hbkey hne, ?_, ?_⟩
  · rintro u v ⟨s, hu, hv⟩
    exact ⟨if s = b then a else s, reaches_link hbkey hne hakey hu,
      reaches_link hbkey hne hakey hv⟩
  · refine ⟨a, ?_, ?_⟩
    · exact .root a (by rw [lookup_setEntry_ne b a par a hne]; exact hakey)
    · exact .step b a a (lookup_setEntry_self b a par) hne
        (.root a (by rw [lookup_setEntry_ne b a par a hne]; exact hakey))

/-- `UnionFind.union` on well-formed states: preserves the invariant, only
coarsens the partition, and makes its two arguments share a root. -/
theorem union_spec {uf : UnionFind} (inv : ParWF uf.parent) (x y : String) :
    ParWF (uf.union x y).parent ∧
      (∀ u v, SameRoot uf.parent u v → SameRoot (uf.union x y).parent u v) ∧
      SameRoot (uf.union x y).parent x y := by
  obtain ⟨rx, uf1, heqx, hreachx, hinv1, hsp1, hmono1, hloop1, hrootx⟩ := find_spec inv x
  obtain ⟨ry, uf2, heqy, hreachy, hinv2, hsp2, hmono2, hloop2, hrooty⟩ := find_spec hinv1 y
  have hrootx2 : uf2.parent.lookup rx = some rx := hloop2 rx hrootx
  have hreachx2 : Reaches uf2.parent x rx := (hsp2 x rx).mp ((hsp1 x rx).mp hreachx)
  have hreachy2 : Reaches uf2.parent y ry := (hsp2 y ry).mp hreachy
  have hspall : SamePart uf.parent uf2.parent := samePart_trans hsp1 hsp2
  by_cases hxy : rx = ry
  · have hun : uf.union x y = uf2 := by
      simp only [UnionFind.union, heqx, heqy]
      rw [if_pos hxy]
    rw [hun]
    refine ⟨hinv2, fun u v h => samePart_sameRoot hspall h, ?_⟩
    exact ⟨ry, hxy ▸ hreachx2, hreachy2⟩
  · by_cases hrank : uf2.rankOf rx < uf2.rankOf ry
    · have hun : (uf.union x y).parent = setEntry rx ry uf2.parent := by
        simp only [UnionFind.union, heqx, heqy]
        rw [if_neg hxy, if_pos hrank]
        split <;> rfl
      have hls := link_spec hinv2 hrooty hrootx2 (fun h => hxy h.symm)
      rw [hun]
      refine ⟨hls.1, fun u v h => hls.2.1 u v (samePart_sameRoot hspall h), ?_⟩
      refine ⟨ry, ?_, ?_⟩
      · have := reaches_link hrootx2 (fun h : ry = rx => hxy h.symm) hrooty hreachx2
        rw [if_pos rfl] at this
        exact this
      · have := reaches_link hrootx2 (fun h : ry = rx => hxy h.symm) hrooty hreachy2
        rw [if_neg (fun h : ry = rx => hxy h.symm)] at this
        exact this
    · have hun : (uf.union x y).parent = setEntry ry rx uf2.parent := by
        simp only [UnionFind.union, heqx, heqy]
        rw [if_neg hxy, if_neg hrank]
        split <;> rfl
      have hls := link_spec hinv2 hrootx2 hrooty hxy
      rw [hun]
      refine ⟨hls.1, fun u v h => hls.2.1 u v (samePart_sameRoot hspall h), ?_⟩
      refine ⟨rx, ?_, ?_⟩
      · have := reaches_link hrooty hxy hrootx2 hreachx2
        rw [if_neg hxy] at this
        exact this
      · have := reaches_link hrooty hxy hrootx2 hreachy2
        rw [if_pos rfl] at this
        exact this

/-! ## `find_duplicates` (dedup.py, lines 300–432)

The per-group mean distance — a Python float produced by true division — is
embedded as an exact rational.  The `key=lambda h: h.path.stat().st_size if
h.path.exists() else 0` sort key is abstracted into the `fileSize` parameter
(the modelled filesystem's size of a path, 0 for a missing file); Python's
stable `list.sort(..., reverse=True)` is the stable `List.mergeSort` with the
reversed comparison.
-/

/-- `DuplicateGroup` dataclass. -/
structure DuplicateGroup where
  original : ImageHash
  duplicates : List ImageHash
  similarity : String
  avg_distance : ℚ
deriving DecidableEq

/-- `DuplicateGroup.all_images`. -/
def DuplicateGroup.all_images (g : DuplicateGroup) : List ImageHash :=
  g.original :: g.duplicates

/-- `DuplicateGroup.size`. -/
def DuplicateGroup.size (g : DuplicateGroup) : Nat :=
  1 + g.duplicates.length

/-- `tuple(sorted([p1, p2], key=str))`: the order-independent pair key. -/
def pairKey (p1 p2 : String) : String × String :=
  if p1 ≤ p2 then (p1, p2) else (p2, p1)

/-- Dict assignment for the pair-keyed `distances` dict. -/
def setPairEntry (k : String × String) (v : Nat) :
    List ((String × String) × Nat) → List ((String × String) × Nat)
  | [] => [(k, v)]
  | (k', v') :: rest => if k' = k then (k, v) :: rest else (k', v') :: setPairEntry k v rest

/-- The mutable state of the pairing loop of `find_duplicates`. -/
structure GroupState where
  uf_identical : UnionFind
  uf_similar : UnionFind
  distances : List ((String × String) × Nat)

/-- The body of the inner `for other, dist in matches` loop: skip self,
record the pair distance, and union in the tier selected by the distance. -/
def processMatch (identical_threshold similar_threshold : Nat) (p : String)
    (st : GroupState) (m : ImageHash × Nat) : GroupState :=
  if m.1.path = p then st
  else
    let distances := setPairEntry (pairKey p m.1.path) m.2 st.distances
    if m.2 ≤ identical_threshold then
      ⟨st.uf_identical.union p m.1.path, st.uf_similar, distances⟩
    else if m.2 ≤ similar_threshold then
      ⟨st.uf_identical, st.uf_similar.union p m.1.path, distances⟩
    else
      ⟨st.uf_identical, st.uf_similar, distances⟩

/-- The pairing loop: query every fingerprint against the tree and union all
matched pairs. -/
def unionPhase (identical_threshold similar_threshold : Nat) (tree : BKTree)
    (hashes : List ImageHash) : GroupState :=
  hashes.foldl
    (fun st h =>
      (tree.find_within h similar_threshold).foldl
        (processMatch identical_threshold similar_threshold h.path) st)
    ⟨UnionFind.initial, UnionFind.initial, []⟩

/-- `identical_roots[root].append(h)` (creating the dict entry on demand, at
the end, as dict insertion does). -/
def appendAt (k : String) (v : ImageHash) :
    List (String × List ImageHash) → List (String × List ImageHash)
  | [] => [(k, [v])]
  | (k', vs) :: rest => if k' = k then (k', vs ++ [v]) :: rest else (k', vs) :: appendAt k v rest

/-- `any(uf.find(other.path) == root for other in hashes if other.path !=
h.path)`: short-circuit evaluation with the find-state threaded through. -/
def anyOtherSameRoot (p root : String) : List ImageHash → UnionFind → Bool × UnionFind
  | [], uf => (false, uf)
  | other :: rest, uf =>
    if other.path = p then anyOtherSameRoot p root rest uf
    else
      let fr := uf.find other.path
      if fr.1 = root then (true, fr.2) else anyOtherSameRoot p root rest fr.2

/-- One iteration of the identical-tier collection loop. -/
def collectIdenticalStep (hashes : List ImageHash)
    (st : UnionFind × List (String × List ImageHash)) (h : ImageHash) :
    UnionFind × List (String × List ImageHash) :=
  let fr := st.1.find h.path
  if fr.1 ≠ h.path then (fr.2, appendAt fr.1 h st.2)
  else
    let ar := anyOtherSameRoot h.path fr.1 hashes fr.2
    if ar.1 then (ar.2, appendAt fr.1 h st.2) else (ar.2, st.2)

/-- The identical-tier collection loop (`identical_roots`). -/
def collectIdenticalRoots (uf : UnionFind) (hashes : List ImageHash) :
    UnionFind × List (String × List ImageHash) :=
  hashes.foldl (collectIdenticalStep hashes) (uf, [])

/-- The similar-tier generator filter additionally skips paths already
assigned to an identical group. -/
def anyOtherSameRootSimilar (assigned : List String) (p root : String) :
    List ImageHash → UnionFind → Bool × UnionFind
  | [], uf => (false, uf)
  | other :: rest, uf =>
    if other.path = p ∨ other.path ∈ assigned then
      anyOtherSameRootSimilar assigned p root rest uf
    else
      let fr := uf.find other.path
      if fr.1 = root then (true, fr.2)
      else anyOtherSameRootSimilar assigned p root rest fr.2

/-- One iteration of the similar-tier collection loop. -/
def collectSimilarStep (hashes : List ImageHash) (assigned : List String)
    (st : UnionFind × List (String × List ImageHash)) (h : ImageHash) :
    UnionFind × List (String × List ImageHash) :=
  if h.path ∈ assigned then st
  else
    let fr := st.1.find h.path
    if fr.1 ≠ h.path then (fr.2, appendAt fr.1 h st.2)
    else
      let ar := anyOtherSameRootSimilar assigned h.path fr.1 hashes fr.2
      if ar.1 then (ar.2, appendAt fr.1 h st.2) else (ar.2, st.2)

/-- The similar-tier collection loop (`similar_roots`). -/
def collectSimilarRoots (uf : UnionFind) (hashes : List ImageHash)
    (assigned : List String) : UnionFind × List (String × List ImageHash) :=
  hashes.foldl (collectSimilarStep hashes assigned) (uf, [])

/-- The nested average-distance loops: total recorded distance and number of
recorded pairs over all ordered pairs `i < j` of the member list. -/
def sumPairDistances (distances : List ((String × String) × Nat)) :
    List ImageHash → Nat × Nat
  | [] => (0, 0)
  | m1 :: rest =>
    let inner := rest.foldl
      (fun acc m2 =>
        match distances.lookup (pairKey m1.path m2.path) with
        | some d => (acc.1 + d, acc.2 + 1)
        | none => acc)
      (0, 0)
    let tc := sumPairDistances distances rest
    (inner.1 + tc.1, inner.2 + tc.2)

/-- `members.sort(key=lambda h: fileSize h.path, reverse=True)`: stable
descending sort by file size. -/
def sortBySize (fileSize : String → Nat) (members : List ImageHash) : List ImageHash :=
  members.mergeSort fun a b => fileSize b.path ≤ fileSize a.path

/-- The group-construction loop over a collected roots dict: skip components
of size `< 2`; otherwise sort, average the recorded distances and build the
`DuplicateGroup` (largest member first as the original). -/
def buildGroups (fileSize : String → Nat) (distances : List ((String × String) × Nat))
    (tier : String) : List (String × List ImageHash) → List DuplicateGroup
  | [] => []
  | (_, members) :: rest =>
    if members.length < 2 then buildGroups fileSize distances tier rest
    else
      let sorted := sortBySize fileSize members
      let tc := sumPairDistances distances sorted
      ⟨sorted.headI, sorted.tail, tier,
          if 0 < tc.2 then (tc.1 : ℚ) / (tc.2 : ℚ) else 0⟩ ::
        buildGroups fileSize distances tier rest

/-- All paths of a list of groups (representative and members). -/
def pathsOfGroups (gs : List DuplicateGroup) : List String :=
  gs.flatMap fun g => g.all_images.map (·.path)

/-- `find_duplicates` (the `hash_by_path` dict of the source is built but
never read afterwards, so it is not modelled). -/
def find_duplicates (fileSize : String → Nat) (hashes : List ImageHash)
    (identical_threshold similar_threshold : Nat) :
    List DuplicateGroup × List DuplicateGroup :=
  if hashes.length < 2 then ([], [])
  else
    let tree := buildTree hashes
    let st := unionPhase identical_threshold similar_threshold tree hashes
    let identical_groups :=
      buildGroups fileSize st.distances "identical"
        (collectIdenticalRoots st.uf_identical hashes).2
    let assigned := pathsOfGroups identical_groups
    let similar_groups :=
      buildGroups fileSize st.distances "similar"
        (collectSimilarRoots st.uf_similar hashes assigned).2
    (identical_groups, similar_groups)

/-! ### Claim C5: disjointness of the result groups -/

def pathsOfBuckets (b : List (String × List ImageHash)) : List String :=
  b.flatMap fun e => e.2.map (·.path)

theorem pathsOfBuckets_nil : pathsOfBuckets [] = [] := rfl

theorem count_pathsOfBuckets_appendAt (k : String) (v : ImageHash)
    (b : List (String × List ImageHash)) (p : String) :
    (pathsOfBuckets (appendAt k v b)).count p =
      (pathsOfBuckets b).count p + (if v.path = p then 1 else 0) := by
  induction b with
  | nil =>
    by_cases hv : v.path = p <;>
      simp [appendAt, pathsOfBuckets, hv, List.count_cons]
  | cons hd rest ih =>
    cases hd with
    | mk k' vs =>
      by_cases hk : k' = k
      · by_cases hv : v.path = p <;>
          simp [appendAt, hk, pathsOfBuckets, List.count_append, List.count_cons, hv] <;>
          omega
      · simp only [appendAt, hk, if_false]
        simp only [pathsOfBuckets, List.flatMap_cons] at ih ⊢
        rw [List.count_append, List.count_append, ih]
        omega

theorem headI_cons_tail_of_ne_nil (l : List ImageHash) (h : l ≠ []) :
    l.headI :: l.tail = l := by
  cases l with
  | nil => exact absurd rfl h
  | cons a t => rfl

theorem length_sortBySize (fileSize : String → Nat) (members : List ImageHash) :
    (sortBySize fileSize members).length = members.length := by
  unfold sortBySize
  exact (List.mergeSort_perm members _).length_eq

theorem perm_sortBySize (fileSize : String → Nat) (members : List ImageHash) :
    (sortBySize fileSize members).Perm members :=
  List.mergeSort_perm members _

theorem pathsOfBuckets_cons (k : String) (members : List ImageHash)
    (rest : List (String × List ImageHash)) :
    pathsOfBuckets ((k, members) :: rest) =
      members.map (·.path) ++ pathsOfBuckets rest := by
  simp [pathsOfBuckets]

theorem pathsOfGroups_cons (g : DuplicateGroup) (gs : List DuplicateGroup) :
    pathsOfGroups (g :: gs) = g.all_images.map (·.path) ++ pathsOfGroups gs := by
  simp [pathsOfGroups]

theorem count_pathsOfGroups_buildGroups (fileSize : String → Nat)
    (distances : List ((String × String) × Nat)) (tier : String) (p : String) :
    ∀ buckets, (pathsOfGroups (buildGroups fileSize distances tier buckets)).count p ≤
      (pathsOfBuckets buckets).count p := by
  intro buckets
  induction buckets with
  | nil => simp [buildGroups, pathsOfGroups]
  | cons hd rest ih =>
    cases hd with
    | mk k members =>
      simp only [buildGroups]
      by_cases hlt : members.length < 2
      · rw [if_pos hlt, pathsOfBuckets_cons, List.count_append]
        omega
      · rw [if_neg hlt, pathsOfGroups_cons, pathsOfBuckets_cons, List.count_append,
          List.count_append]
        have hne : sortBySize fileSize members ≠ [] := by
          intro hnil
          have := length_sortBySize fileSize members
          rw [hnil] at this
          simp at this
          omega
        have himg : (DuplicateGroup.mk (sortBySize fileSize members).headI
            (sortBySize fileSize members).tail tier
            (if 0 < (sumPairDistances distances (sortBySize fileSize members)).2 then
              ((sumPairDistances distances (sortBySize fileSize members)).1 : ℚ) /
                ((sumPairDistances distances (sortBySize fileSize members)).2 : ℚ)
            else 0)).all_images = sortBySize fileSize members := by
          unfold DuplicateGroup.all_images
          exact headI_cons_tail_of_ne_nil _ hne
        rw [himg]
        have hperm : ((sortBySize fileSize members).map (·.path)).count p =
            (members.map (·.path)).count p :=
          ((perm_sortBySize fileSize members).map _).count_eq p
        omega

theorem buildGroups_duplicates_ne_nil (fileSize : String → Nat)
    (distances : List ((String × String) × Nat)) (tier : String) :
    ∀ buckets g, g ∈ buildGroups fileSize distances tier buckets → g.duplicates ≠ [] := by
  intro buckets
  induction buckets with
  | nil => simp [buildGroups]
  | cons hd rest ih =>
    cases hd with
    | mk k members =>
      intro g hg
      simp only [buildGroups] at hg
      by_cases hlt : members.length < 2
      · rw [if_pos hlt] at hg
        exact ih g hg
      · rw [if_neg hlt] at hg
        rcases List.mem_cons.mp hg with hg | hg
        · subst hg
          show (sortBySize fileSize members).tail ≠ []
          have hlen := length_sortBySize fileSize members
          intro hnil
          have := congrArg List.length hnil
          rw [List.length_tail] at this
          simp at this
          omega
        · exact ih g hg

theorem count_collect_step_le (hashes : List ImageHash) (p : String)
    (st : UnionFind × List (String × List ImageHash)) (h : ImageHash) :
    (pathsOfBuckets (collectIdenticalStep hashes st h).2).count p ≤
      (pathsOfBuckets st.2).count p + (if h.path = p then 1 else 0) := by
  simp only [collectIdenticalStep]
  split
  · dsimp only
    rw [count_pathsOfBuckets_appendAt]
  · split
    · dsimp only
      rw [count_pathsOfBuckets_appendAt]
    · dsimp only
      split <;> omega

theorem count_collectIdentical_le (hashes : List ImageHash) (p : String) :
    ∀ (l : List ImageHash) (st : UnionFind × List (String × List ImageHash)),
      (pathsOfBuckets (l.foldl (collectIdenticalStep hashes) st).2).count p ≤
        (pathsOfBuckets st.2).count p + (l.map (·.path)).count p := by
  intro l
  induction l with
  | nil => simp
  | cons h rest ih =>
    intro st
    simp only [List.foldl_cons, List.map_cons, List.count_cons]
    refine le_trans (ih _) ?_
    have := count_collect_step_le hashes p st h
    split at this <;> rename_i hh
    · simp only [beq_iff_eq]
      rw [if_pos hh]
      omega
    · simp only [beq_iff_eq]
      rw [if_neg hh]
      omega

theorem count_collectSimilar_step_le (hashes : List ImageHash) (assigned : List String)
    (p : String) (st : UnionFind × List (String × List ImageHash)) (h : ImageHash) :
    (pathsOfBuckets (collectSimilarStep hashes assigned st h).2).count p ≤
      (pathsOfBuckets st.2).count p + (if h.path = p then 1 else 0) := by
  simp only [collectSimilarStep]
  split
  · split <;> omega
  · split
    · dsimp only
      rw [count_pathsOfBuckets_appendAt]
    · split
      · dsimp only
        rw [count_pathsOfBuckets_appendAt]
      · dsimp only
        split <;> omega

theorem count_collectSimilar_le (hashes : List ImageHash) (assigned : List String)
    (p : String) :
    ∀ (l : List ImageHash) (st : UnionFind × List (String × List ImageHash)),
      (pathsOfBuckets (l.foldl (collectSimilarStep hashes assigned) st).2).count p ≤
        (pathsOfBuckets st.2).count p + (l.map (·.path)).count p := by
  intro l
  induction l with
  | nil => simp
  | cons h rest ih =>
    intro st
    simp only [List.foldl_cons, List.map_cons, List.count_cons]
    refine le_trans (ih _) ?_
    have := count_collectSimilar_step_le hashes assigned p st h
    split at this <;> rename_i hh
    · simp only [beq_iff_eq]
      rw [if_pos hh]
      omega
    · simp only [beq_iff_eq]
      rw [if_neg hh]
      omega

theorem count_collectSimilar_assigned_zero (hashes : List ImageHash)
    (assigned : List String) (p : String) (hp : p ∈ assigned) :
    ∀ (l : List ImageHash) (st : UnionFind × List (String × List ImageHash)),
      (pathsOfBuckets st.2).count p = 0 →
        (pathsOfBuckets (l.foldl (collectSimilarStep hashes assigned) st).2).count p = 0 := by
  intro l
  induction l with
  | nil => exact fun st h => h
  | cons h rest ih =>
    intro st hst
    simp only [List.foldl_cons]
    apply ih
    simp only [collectSimilarStep]
    split
    · exact hst
    · rename_i hmem
      have hne : h.path ≠ p := fun hq => hmem (hq ▸ hp)
      split
      · dsimp only
        rw [count_pathsOfBuckets_appendAt, if_neg hne, hst]
      · split
        · dsimp only
          rw [count_pathsOfBuckets_appendAt, if_neg hne, hst]
        · exact hst

theorem count_collectIdenticalRoots_le (uf : UnionFind) (hashes : List ImageHash)
    (p : String) :
    (pathsOfBuckets (collectIdenticalRoots uf hashes).2).count p ≤
      (hashes.map (·.path)).count p := by
  unfold collectIdenticalRoots
  have := count_collectIdentical_le hashes p hashes (uf, [])
  simpa [pathsOfBuckets_nil] using this

theorem count_collectSimilarRoots_le (uf : UnionFind) (hashes : List ImageHash)
    (assigned : List String) (p : String) :
    (pathsOfBuckets (collectSimilarRoots uf hashes assigned).2).count p ≤
      (hashes.map (·.path)).count p := by
  unfold collectSimilarRoots
  have := count_collectSimilar_le hashes assigned p hashes (uf, [])
  simpa [pathsOfBuckets_nil] using this

theorem count_collectSimilarRoots_assigned_zero (uf : UnionFind)
    (hashes : List ImageHash) (assigned : List String) (p : String)
    (hp : p ∈ assigned) :
    (pathsOfBuckets (collectSimilarRoots uf hashes assigned).2).count p = 0 := by
  unfold collectSimilarRoots
  exact count_collectSimilar_assigned_zero hashes assigned p hp hashes (uf, [])
    (by simp [pathsOfBuckets_nil])

/-- C5: in the result of `find_duplicates` over fingerprints with pairwise
distinct paths, every path occurs at most once across
`identical_groups ∪ similar_groups` (representatives and members counted),
and every constructed group has a non-empty `duplicates` list. -/
theorem C5_find_duplicates_disjoint (fileSize : String → Nat) (hashes : List ImageHash)
    (identical_threshold similar_threshold : Nat)
    (hnodup : (hashes.map (·.path)).Nodup) :
    (∀ p, (pathsOfGroups
        ((find_duplicates fileSize hashes identical_threshold similar_threshold).1 ++
          (find_duplicates fileSize hashes identical_threshold similar_threshold).2)).count
          p ≤ 1) ∧
      ∀ g, (g ∈ (find_duplicates fileSize hashes identical_threshold similar_threshold).1 ∨
          g ∈ (find_duplicates fileSize hashes identical_threshold similar_threshold).2) →
        g.duplicates ≠ [] := by
  by_cases hlen : hashes.length < 2
  · constructor
    · intro p
      simp [find_duplicates, hlen, pathsOfGroups]
    · intro g hg
      simp [find_duplicates, hlen] at hg
  · have h1 : (find_duplicates fileSize hashes identical_threshold similar_threshold).1 =
        buildGroups fileSize
          (unionPhase identical_threshold similar_threshold (buildTree hashes)
            hashes).distances "identical"
          (collectIdenticalRoots
            (unionPhase identical_threshold similar_threshold (buildTree hashes)
              hashes).uf_identical hashes).2 := by
      simp only [find_duplicates, if_neg hlen]
    have h2 : (find_duplicates fileSize hashes identical_threshold similar_threshold).2 =
        buildGroups fileSize
          (unionPhase identical_threshold similar_threshold (buildTree hashes)
            hashes).distances "similar"
          (collectSimilarRoots
            (unionPhase identical_threshold similar_threshold (buildTree hashes)
              hashes).uf_similar hashes
            (pathsOfGroups
              (find_duplicates fileSize hashes identical_threshold similar_threshold).1)).2 := by
      conv_lhs => simp only [find_duplicates, if_neg hlen]
      rw [h1]
    have hcnt : ∀ p, (hashes.map (·.path)).count p ≤ 1 :=
      List.nodup_iff_count_le_one.mp hnodup
    have hig : ∀ p,
        (pathsOfGroups
          (find_duplicates fileSize hashes identical_threshold similar_threshold).1).count
            p ≤ 1 := by
      intro p
      rw [h1]
      refine le_trans (count_pathsOfGroups_buildGroups _ _ _ _ _) ?_
      refine le_trans (count_collectIdenticalRoots_le _ hashes p) ?_
      exact hcnt p
    constructor
    · intro p
      rw [pathsOfGroups, List.flatMap_append, List.count_append]
      rw [← pathsOfGroups, ← pathsOfGroups]
      by_cases hpos :
          0 < (pathsOfGroups
            (find_duplicates fileSize hashes identical_threshold similar_threshold).1).count p
      · have hmem : p ∈ pathsOfGroups
            (find_duplicates fileSize hashes identical_threshold similar_threshold).1 :=
          List.count_pos_iff.mp hpos
        have hzero : (pathsOfGroups
            (find_duplicates fileSize hashes identical_threshold similar_threshold).2).count
              p = 0 := by
          rw [h2]
          refine Nat.le_zero.mp (le_trans (count_pathsOfGroups_buildGroups _ _ _ _ _) ?_)
          rw [count_collectSimilarRoots_assigned_zero _ hashes _ p hmem]
        have := hig p
        omega
      · have hsim : (pathsOfGroups
            (find_duplicates fileSize hashes identical_threshold similar_threshold).2).count
              p ≤ 1 := by
          rw [h2]
          refine le_trans (count_pathsOfGroups_buildGroups _ _ _ _ _) ?_
          refine le_trans (count_collectSimilarRoots_le _ hashes _ p) ?_
          exact hcnt p
        omega
    · intro g hg
      rcases hg with hg | hg
      · rw [h1] at hg
        exact buildGroups_duplicates_ne_nil _ _ _ _ g hg
      · rw [h2] at hg
        exact buildGroups_duplicates_ne_nil _ _ _ _ g hg

/-- C5, witness for `C5_find_duplicates_disjoint` on a concrete two-element
input. -/
theorem C5_find_duplicates_disjoint_witness :
    (pathsOfGroups
        ((find_duplicates (fun _ => 0) [ImageHash.mk 0 0 "a", ImageHash.mk 1 0 "b"] 5 15).1 ++
          (find_duplicates (fun _ => 0) [ImageHash.mk 0 0 "a", ImageHash.mk 1 0 "b"]
            5 15).2)).count "a" ≤ 1 :=
  (C5_find_duplicates_disjoint (fun _ => 0) [ImageHash.mk 0 0 "a", ImageHash.mk 1 0 "b"]
    5 15 (by decide)).1 "a"

/-! ### Claim C4: transitive grouping within the identical tier -/

/-- Both union-find structures of the pairing loop are well-formed forests. -/
def GroupStateWF (st : GroupState) : Prop :=
  ParWF st.uf_identical.parent ∧ ParWF st.uf_similar.parent

theorem processMatch_wf (identical_threshold similar_threshold : Nat) (p : String)
    (st : GroupState) (m : ImageHash × Nat) (h : GroupStateWF st) :
    GroupStateWF (processMatch identical_threshold similar_threshold p st m) := by
  simp only [processMatch]
  split
  · exact h
  · split
    · exact ⟨(union_spec h.1 p m.1.path).1, h.2⟩
    · split
      · exact ⟨h.1, (union_spec h.2 p m.1.path).1⟩
      · exact h

theorem processMatch_mono_id (identical_threshold similar_threshold : Nat) (p : String)
    (st : GroupState) (m : ImageHash × Nat) (h : GroupStateWF st) (u v : String)
    (hs : SameRoot st.uf_identical.parent u v) :
    SameRoot (processMatch identical_threshold similar_threshold p st m).uf_identical.parent
      u v := by
  simp only [processMatch]
  split
  · exact hs
  · split
    · exact (union_spec h.1 p m.1.path).2.1 u v hs
    · split
      · exact hs
      · exact hs

theorem foldl_preserve {σ α : Type} (f : σ → α → σ) (P : σ → Prop)
    (hstep : ∀ s a, P s → P (f s a)) :
    ∀ (l : List α) (s : σ), P s → P (l.foldl f s) := by
  intro l
  induction l with
  | nil => exact fun s h => h
  | cons a rest ih => exact fun s h => ih (f s a) (hstep s a h)

theorem unionPhase_wf (identical_threshold similar_threshold : Nat) (tree : BKTree)
    (hashes : List ImageHash) :
    GroupStateWF (unionPhase identical_threshold similar_threshold tree hashes) := by
  unfold unionPhase
  refine foldl_preserve _ GroupStateWF ?_ hashes _ ⟨parWF_nil, parWF_nil⟩
  intro s a hs
  exact foldl_preserve _ GroupStateWF
    (fun s' m hs' => processMatch_wf _ _ _ s' m hs') _ s hs

/-- If a fingerprint `Y` with a distance within the identical threshold shows
up among the BK-tree matches of `X`'s query, the pairing loop unions the two
paths in the identical tier (and later steps only coarsen the partition). -/
theorem unionPhase_pair_sameRoot (identical_threshold similar_threshold : Nat)
    (tree : BKTree) (hashes : List ImageHash) (X Y : ImageHash) (hX : X ∈ hashes)
    (hmem : (Y, Y.hamming_distance X) ∈ tree.find_within X similar_threshold)
    (hne : Y.path ≠ X.path) (hd : Y.hamming_distance X ≤ identical_threshold) :
    SameRoot
      (unionPhase identical_threshold similar_threshold tree hashes).uf_identical.parent
      X.path Y.path := by
  obtain ⟨l1, l2, hsplit⟩ := List.append_of_mem hX
  unfold unionPhase
  rw [hsplit, List.foldl_append, List.foldl_cons]
  have hwf1 : GroupStateWF (l1.foldl
      (fun st h => (tree.find_within h similar_threshold).foldl
        (processMatch identical_threshold similar_threshold h.path) st)
      ⟨UnionFind.initial, UnionFind.initial, []⟩) :=
    foldl_preserve _ GroupStateWF
      (fun s a hs => foldl_preserve _ GroupStateWF
        (fun s' m hs' => processMatch_wf _ _ _ s' m hs') _ s hs)
      l1 _ ⟨parWF_nil, parWF_nil⟩
  refine (foldl_preserve _
    (fun s => GroupStateWF s ∧ SameRoot s.uf_identical.parent X.path Y.path) ?_ l2 _ ?_).2
  · intro s a hs
    exact foldl_preserve _
      (fun s' => GroupStateWF s' ∧ SameRoot s'.uf_identical.parent X.path Y.path)
      (fun s' m hs' => ⟨processMatch_wf _ _ _ s' m hs'.1,
        processMatch_mono_id _ _ _ s' m hs'.1 _ _ hs'.2⟩) _ s hs
  · obtain ⟨m1, m2, hm⟩ := List.append_of_mem hmem
    show GroupStateWF _ ∧ SameRoot _ X.path Y.path
    rw [hm, List.foldl_append, List.foldl_cons]
    have hwf2 : GroupStateWF (m1.foldl
        (processMatch identical_threshold similar_threshold X.path) _) :=
      foldl_preserve _ GroupStateWF
        (fun s' m hs' => processMatch_wf _ _ _ s' m hs') m1 _ hwf1
    refine foldl_preserve _
      (fun s' => GroupStateWF s' ∧ SameRoot s'.uf_identical.parent X.path Y.path)
      (fun s' m hs' => ⟨processMatch_wf _ _ _ s' m hs'.1,
        processMatch_mono_id _ _ _ s' m hs'.1 _ _ hs'.2⟩) m2 _ ?_
    refine ⟨processMatch_wf _ _ _ _ _ hwf2, ?_⟩
    simp only [processMatch]
    rw [if_neg hne, if_pos hd]
    exact (union_spec hwf2.1 X.path Y.path).2.2

theorem sameRoot_refl {par : List (String × String)} (hwf : ParWF par) (x : String) :
    SameRoot par x x := by
  obtain ⟨r, n, hn⟩ := reachesN_exists hwf x
  exact ⟨r, reachesN_reaches hn, reachesN_reaches hn⟩

theorem sameRoot_trans {par : List (String × String)} {a b c : String}
    (h1 : SameRoot par a b) (h2 : SameRoot par b c) : SameRoot par a c := by
  obtain ⟨r, ha, hb⟩ := h1
  obtain ⟨r', hb', hc⟩ := h2
  have : r' = r := reaches_det hb' hb
  exact ⟨r, ha, this ▸ hc⟩

theorem path_injective {hashes : List ImageHash}
    (hnodup : (hashes.map (·.path)).Nodup) {a b : ImageHash}
    (ha : a ∈ hashes) (hb : b ∈ hashes) (hab : a ≠ b) : a.path ≠ b.path :=
  fun h => hab (List.inj_on_of_nodup_map hnodup ha hb h)

theorem two_le_length_of_mem_ne {α : Type} {u v : α} {l : List α}
    (hu : u ∈ l) (hv : v ∈ l) (huv : u ≠ v) : 2 ≤ l.length := by
  cases l with
  | nil => simp at hu
  | cons a t =>
    cases t with
    | nil =>
      simp at hu hv
      rw [hu, hv] at huv
      exact absurd rfl huv
    | cons b t2 => simp

def bucketsVal (b : List (String × List ImageHash)) (k : String) : List ImageHash :=
  (b.lookup k).getD []

theorem bucketsVal_appendAt_self (k : String) (v : ImageHash)
    (b : List (String × List ImageHash)) :
    bucketsVal (appendAt k v b) k = bucketsVal b k ++ [v] := by
  induction b with
  | nil => simp [appendAt, bucketsVal, List.lookup]
  | cons hd rest ih =>
    cases hd with
    | mk k' vs =>
      by_cases hk : k' = k
      · subst hk
        simp [appendAt, bucketsVal, List.lookup]
      · simp only [appendAt, hk, if_false]
        have hbeq : (k == k') = false := by
          rw [beq_eq_false_iff_ne]
          exact fun h => hk h.symm
        simp only [bucketsVal, List.lookup, hbeq] at ih ⊢
        exact ih

theorem bucketsVal_appendAt_ne (k : String) (v : ImageHash)
    (b : List (String × List ImageHash)) (k' : String) (h : k' ≠ k) :
    bucketsVal (appendAt k v b) k' = bucketsVal b k' := by
  induction b with
  | nil =>
    simp only [appendAt, bucketsVal, List.lookup, List.lookup_nil]
    have hbeq : (k' == k) = false := by
      rw [beq_eq_false_iff_ne]
      exact h
    simp [hbeq]
  | cons hd rest ih =>
    cases hd with
    | mk k0 vs =>
      by_cases hk : k0 = k
      · subst hk
        have hbeq : (k' == k0) = false := by
          rw [beq_eq_false_iff_ne]
          exact h
        simp [appendAt, bucketsVal, List.lookup, hbeq]
      · simp only [appendAt, hk, if_false]
        simp only [bucketsVal, List.lookup] at ih ⊢
        cases hbeq : k' == k0 with
        | true => rfl
        | false => exact ih

theorem mem_bucketsVal_appendAt (k' : String) (v : ImageHash)
    (b : List (String × List ImageHash)) (k : String) (x : ImageHash)
    (hx : x ∈ bucketsVal b k) : x ∈ bucketsVal (appendAt k' v b) k := by
  by_cases hk : k' = k
  · subst hk
    rw [bucketsVal_appendAt_self]
    exact List.mem_append_left _ hx
  · rw [bucketsVal_appendAt_ne k' v b k (fun h => hk h.symm)]
    exact hx

theorem mem_bucketsVal_appendAt_self (k : String) (v : ImageHash)
    (b : List (String × List ImageHash)) : v ∈ bucketsVal (appendAt k v b) k := by
  rw [bucketsVal_appendAt_self]
  exact List.mem_append_right _ (by simp)

theorem lookup_of_mem_bucketsVal {b : List (String × List ImageHash)} {k : String}
    {x : ImageHash} (hx : x ∈ bucketsVal b k) :
    ∃ vs, b.lookup k = some vs ∧ x ∈ vs := by
  unfold bucketsVal at hx
  cases hl : b.lookup k with
  | none =>
    rw [hl] at hx
    simp at hx
  | some vs =>
    rw [hl] at hx
    exact ⟨vs, rfl, hx⟩

theorem mem_of_lookup_eq_some {b : List (String × List ImageHash)} {k : String}
    {vs : List ImageHash} (h : b.lookup k = some vs) : (k, vs) ∈ b := by
  induction b with
  | nil => simp at h
  | cons hd rest ih =>
    cases hd with
    | mk k0 vs0 =>
      rw [List.lookup_cons] at h
      cases hbeq : k == k0 with
      | true =>
        rw [hbeq] at h
        simp only [Option.some.injEq] at h
        have hk : k = k0 := by rwa [beq_iff_eq] at hbeq
        rw [hk, h]
        exact List.mem_cons_self _ _
      | false =>
        rw [hbeq] at h
        exact List.mem_cons_of_mem _ (ih h)

theorem anyOtherSameRoot_state (p root : String) :
    ∀ (l : List ImageHash) (uf : UnionFind), ParWF uf.parent →
      ParWF (anyOtherSameRoot p root l uf).2.parent ∧
        SamePart uf.parent (anyOtherSameRoot p root l uf).2.parent := by
  intro l
  induction l with
  | nil => exact fun uf h => ⟨h, samePart_refl _⟩
  | cons hd rest ih =>
    intro uf h
    obtain ⟨r', uf', heq, _, hwf', hsp', _, _, _⟩ := find_spec h hd.path
    simp only [anyOtherSameRoot, heq]
    split
    · exact ih uf h
    · split
      · exact ⟨hwf', hsp'⟩
      · obtain ⟨hw2, hs2⟩ := ih uf' hwf'
        exact ⟨hw2, samePart_trans hsp' hs2⟩

theorem anyOtherSameRoot_true {uf0par : List (String × String)} (p root : String) :
    ∀ (l : List ImageHash) (uf : UnionFind), ParWF uf.parent →
      SamePart uf0par uf.parent →
      (∃ other ∈ l, other.path ≠ p ∧ Reaches uf0par other.path root) →
      (anyOtherSameRoot p root l uf).1 = true := by
  intro l
  induction l with
  | nil =>
    rintro uf _ _ ⟨other, hmem, _⟩
    simp at hmem
  | cons hd rest ih =>
    rintro uf hwf hsp ⟨other, hmem, hne, hroot⟩
    obtain ⟨r', uf', heq, hreach, hwf', hsp', _, _, _⟩ := find_spec hwf hd.path
    simp only [anyOtherSameRoot, heq]
    by_cases hdp : hd.path = p
    · rw [if_pos hdp]
      apply ih uf hwf hsp
      rcases List.mem_cons.mp hmem with rfl | hmem2
      · exact absurd hdp hne
      · exact ⟨other, hmem2, hne, hroot⟩
    · rw [if_neg hdp]
      by_cases hrr : r' = root
      · rw [if_pos hrr]
      · rw [if_neg hrr]
        apply ih uf' hwf' (samePart_trans hsp hsp')
        rcases List.mem_cons.mp hmem with heqo | hmem2
        · exfalso
          have h1 : Reaches uf.parent hd.path root := by
            rw [← heqo]
            exact (hsp other.path root).mp hroot
          exact hrr (reaches_det hreach h1)
        · exact ⟨other, hmem2, hne, hroot⟩

/-- Invariant carried through the collection loop: the threaded union-find
stays well-formed and partition-equivalent to the loop's starting state. -/
def CollectInv (uf0par : List (String × String))
    (st : UnionFind × List (String × List ImageHash)) : Prop :=
  ParWF st.1.parent ∧ SamePart uf0par st.1.parent

theorem collectIdenticalStep_inv (hashes : List ImageHash)
    (uf0par : List (String × String)) (st : UnionFind × List (String × List ImageHash))
    (h : ImageHash) (hinv : CollectInv uf0par st) :
    CollectInv uf0par (collectIdenticalStep hashes st h) := by
  obtain ⟨hwf, hsp⟩ := hinv
  obtain ⟨r', uf', heq, _, hwf', hsp', _, _, _⟩ := find_spec hwf h.path
  simp only [collectIdenticalStep, heq]
  split
  · exact ⟨hwf', samePart_trans hsp hsp'⟩
  · obtain ⟨hw2, hs2⟩ := anyOtherSameRoot_state h.path r' hashes uf' hwf'
    split
    · exact ⟨hw2, samePart_trans hsp (samePart_trans hsp' hs2)⟩
    · exact ⟨hw2, samePart_trans hsp (samePart_trans hsp' hs2)⟩

theorem collectIdenticalStep_bucket_mono (hashes : List ImageHash)
    (st : UnionFind × List (String × List ImageHash)) (h : ImageHash)
    (k : String) (x : ImageHash) (hx : x ∈ bucketsVal st.2 k) :
    x ∈ bucketsVal (collectIdenticalStep hashes st h).2 k := by
  simp only [collectIdenticalStep]
  split
  · dsimp only
    exact mem_bucketsVal_appendAt _ _ _ _ _ hx
  · split
    · dsimp only
      exact mem_bucketsVal_appendAt _ _ _ _ _ hx
    · exact hx

theorem collectIdenticalStep_adds (hashes : List ImageHash)
    (uf0par : List (String × String)) (st : UnionFind × List (String × List ImageHash))
    (h : ImageHash) (r : String) (hinv : CollectInv uf0par st)
    (hr : Reaches uf0par h.path r)
    (hwit : ∃ other ∈ hashes, other.path ≠ h.path ∧ Reaches uf0par other.path r) :
    h ∈ bucketsVal (collectIdenticalStep hashes st h).2 r := by
  obtain ⟨hwf, hsp⟩ := hinv
  obtain ⟨r', uf', heq, hreach, hwf', hsp', _, _, _⟩ := find_spec hwf h.path
  have hrr : r' = r := reaches_det hreach ((hsp h.path r).mp hr)
  simp only [collectIdenticalStep, heq]
  split
  · rw [hrr]
    exact mem_bucketsVal_appendAt_self r h st.2
  · have htrue : (anyOtherSameRoot h.path r' hashes uf').1 = true := by
      refine anyOtherSameRoot_true h.path r' hashes uf' hwf'
        (samePart_trans hsp hsp') ?_
      rw [hrr]
      exact hwit
    rw [htrue, if_pos rfl]
    rw [hrr]
    exact mem_bucketsVal_appendAt_self r h _

theorem collectIdentical_members (uf0 : UnionFind) (hashes : List ImageHash)
    (A : ImageHash) (r : String) (hA : A ∈ hashes) (hwf0 : ParWF uf0.parent)
    (hr : Reaches uf0.parent A.path r)
    (hwit : ∃ other ∈ hashes, other.path ≠ A.path ∧ Reaches uf0.parent other.path r) :
    A ∈ bucketsVal (collectIdenticalRoots uf0 hashes).2 r := by
  unfold collectIdenticalRoots
  obtain ⟨l1, l2, hsplit⟩ := List.append_of_mem hA
  rw [hsplit] at hwit ⊢
  rw [List.foldl_append, List.foldl_cons]
  have hinv1 : CollectInv uf0.parent
      (l1.foldl (collectIdenticalStep (l1 ++ A :: l2)) (uf0, [])) :=
    foldl_preserve _ (CollectInv uf0.parent)
      (fun s a hs => collectIdenticalStep_inv _ _ s a hs) l1 (uf0, [])
      ⟨hwf0, samePart_refl _⟩
  refine foldl_preserve _ (fun s => A ∈ bucketsVal s.2 r)
    (fun s a hs => collectIdenticalStep_bucket_mono _ s a r A hs) l2 _ ?_
  exact collectIdenticalStep_adds _ uf0.parent _ A r hinv1 hr hwit

theorem buildGroups_mem_of_bucket (fileSize : String → Nat)
    (distances : List ((String × String) × Nat)) (tier : String) :
    ∀ buckets (k : String) (vs : List ImageHash), (k, vs) ∈ buckets →
      2 ≤ vs.length →
      ∃ g ∈ buildGroups fileSize distances tier buckets, ∀ x ∈ vs, x ∈ g.all_images := by
  intro buckets
  induction buckets with
  | nil =>
    intro k vs h
    simp at h
  | cons hd rest ih =>
    intro k vs hmem hlen
    cases hd with
    | mk k0 ms =>
      simp only [buildGroups]
      rcases List.mem_cons.mp hmem with heq | hmem2
      · have hv : vs = ms := congrArg Prod.snd heq
        subst hv
        have hlt : ¬ vs.length < 2 := by omega
        rw [if_neg hlt]
        refine ⟨_, List.mem_cons_self _ _, ?_⟩
        intro x hx
        have hne : sortBySize fileSize vs ≠ [] := by
          intro hnil
          have := length_sortBySize fileSize vs
          rw [hnil] at this
          simp at this
          omega
        show x ∈ DuplicateGroup.all_images _
        unfold DuplicateGroup.all_images
        show x ∈ (sortBySize fileSize vs).headI :: (sortBySize fileSize vs).tail
        rw [headI_cons_tail_of_ne_nil _ hne]
        exact ((perm_sortBySize fileSize vs).mem_iff).mpr hx
      · by_cases hlt : ms.length < 2
        · rw [if_pos hlt]
          exact ih k vs hmem2 hlen
        · rw [if_neg hlt]
          obtain ⟨g, hg, hgx⟩ := ih k vs hmem2 hlen
          exact ⟨g, List.mem_cons_of_mem _ hg, hgx⟩

/-- C4: under the spec's threshold constraint (`similarMax > identicalMax`),
grouping is transitively closed within the identical tier: three fingerprints
of the input (with pairwise distinct paths, not all three the same
fingerprint) chained by distances within the identical threshold end up in
one and the same identical-tier `DuplicateGroup`. -/
theorem C4_find_duplicates_transitive (fileSize : String → Nat)
    (hashes : List ImageHash) (identical_threshold similar_threshold : Nat)
    (A B C : ImageHash) (hnodup : (hashes.map (·.path)).Nodup)
    (hts : identical_threshold < similar_threshold)
    (hA : A ∈ hashes) (hB : B ∈ hashes) (hC : C ∈ hashes)
    (hAB : A.hamming_distance B ≤ identical_threshold)
    (hBC : B.hamming_distance C ≤ identical_threshold)
    (hnall : ¬(A = B ∧ B = C)) :
    ∃ g ∈ (find_duplicates fileSize hashes identical_threshold similar_threshold).1,
      A ∈ g.all_images ∧ B ∈ g.all_images ∧ C ∈ g.all_images := by
  have hdist : A ≠ B ∨ B ≠ C := by
    by_cases h : A = B
    · exact Or.inr fun h2 => hnall ⟨h, h2⟩
    · exact Or.inl h
  have hlen : ¬ hashes.length < 2 := by
    rcases hdist with h | h
    · have := two_le_length_of_mem_ne hA hB h
      omega
    · have := two_le_length_of_mem_ne hB hC h
      omega
  have hwfU := unionPhase_wf identical_threshold similar_threshold (buildTree hashes) hashes
  have hpair : ∀ X Y : ImageHash, X ∈ hashes → Y ∈ hashes → X ≠ Y →
      X.hamming_distance Y ≤ identical_threshold →
      SameRoot (unionPhase identical_threshold similar_threshold (buildTree hashes)
        hashes).uf_identical.parent X.path Y.path := by
    intro X Y hXm hYm hXY hd
    have hpne : Y.path ≠ X.path := fun h => (path_injective hnodup hXm hYm hXY) h.symm
    refine unionPhase_pair_sameRoot _ _ _ _ X Y hXm ?_ hpne ?_
    · refine search_complete _ (buildTree_wf hashes) _ _ _
        ((mem_toList_buildTree hashes Y).mpr hYm) ?_
      rw [hamming_distance_comm]
      omega
    · rw [hamming_distance_comm]
      exact hd
  have hsAB : SameRoot (unionPhase identical_threshold similar_threshold
      (buildTree hashes) hashes).uf_identical.parent A.path B.path := by
    by_cases h : A = B
    · rw [h]
      exact sameRoot_refl hwfU.1 _
    · exact hpair A B hA hB h hAB
  have hsBC : SameRoot (unionPhase identical_threshold similar_threshold
      (buildTree hashes) hashes).uf_identical.parent B.path C.path := by
    by_cases h : B = C
    · rw [h]
      exact sameRoot_refl hwfU.1 _
    · exact hpair B C hB hC h hBC
  obtain ⟨r, hrA, hrB⟩ := hsAB
  obtain ⟨r2, hrB2, hrC2⟩ := hsBC
  have hr2 : r2 = r := reaches_det hrB2 hrB
  have hrC : Reaches (unionPhase identical_threshold similar_threshold
      (buildTree hashes) hashes).uf_identical.parent C.path r := hr2 ▸ hrC2
  have hreach3 : ∀ X : ImageHash, (X = A ∨ X = B ∨ X = C) →
      Reaches (unionPhase identical_threshold similar_threshold
        (buildTree hashes) hashes).uf_identical.parent X.path r := by
    rintro X (rfl | rfl | rfl)
    · exact hrA
    · exact hrB
    · exact hrC
  have hmem3 : ∀ X : ImageHash, (X = A ∨ X = B ∨ X = C) → X ∈ hashes := by
    rintro X (rfl | rfl | rfl)
    · exact hA
    · exact hB
    · exact hC
  have hwit : ∀ X : ImageHash, (X = A ∨ X = B ∨ X = C) →
      ∃ other ∈ hashes, other.path ≠ X.path ∧
        Reaches (unionPhase identical_threshold similar_threshold
          (buildTree hashes) hashes).uf_identical.parent other.path r := by
    intro X hX
    have hpick : ∃ Y : ImageHash, (Y = A ∨ Y = B ∨ Y = C) ∧ Y ≠ X := by
      rcases hdist with h | h
      · by_cases hXA : X = A
        · exact ⟨B, Or.inr (Or.inl rfl), fun hq => h (hXA ▸ hq.symm)⟩
        · exact ⟨A, Or.inl rfl, fun hq => hXA hq.symm⟩
      · by_cases hXB : X = B
        · refine ⟨C, Or.inr (Or.inr rfl), fun hq => ?_⟩
          rw [hXB] at hq
          exact h hq.symm
        · exact ⟨B, Or.inr (Or.inl rfl), fun hq => hXB hq.symm⟩
    obtain ⟨Y, hYin, hYX⟩ := hpick
    exact ⟨Y, hmem3 Y hYin,
      fun hq => (path_injective hnodup (hmem3 Y hYin) (hmem3 X hX) hYX) hq,
      hreach3 Y hYin⟩
  have hbA : A ∈ bucketsVal (collectIdenticalRoots
      (unionPhase identical_threshold similar_threshold (buildTree hashes)
        hashes).uf_identical hashes).2 r :=
    collectIdentical_members _ hashes A r hA hwfU.1 hrA (hwit A (Or.inl rfl))
  have hbB : B ∈ bucketsVal (collectIdenticalRoots
      (unionPhase identical_threshold similar_threshold (buildTree hashes)
        hashes).uf_identical hashes).2 r :=
    collectIdentical_members _ hashes B r hB hwfU.1 hrB (hwit B (Or.inr (Or.inl rfl)))
  have hbC : C ∈ bucketsVal (collectIdenticalRoots
      (unionPhase identical_threshold similar_threshold (buildTree hashes)
        hashes).uf_identical hashes).2 r :=
    collectIdentical_members _ hashes C r hC hwfU.1 hrC (hwit C (Or.inr (Or.inr rfl)))
  obtain ⟨vs, hlk, hAvs⟩ := lookup_of_mem_bucketsVal hbA
  have hBvs : B ∈ vs := by
    obtain ⟨vs2, hlk2, hm⟩ := lookup_of_mem_bucketsVal hbB
    rw [hlk] at hlk2
    rw [Option.some.inj hlk2]
    exact hm
  have hCvs : C ∈ vs := by
    obtain ⟨vs2, hlk2, hm⟩ := lookup_of_mem_bucketsVal hbC
    rw [hlk] at hlk2
    rw [Option.some.inj hlk2]
    exact hm
  have hlen2 : 2 ≤ vs.length := by
    rcases hdist with h | h
    · exact two_le_length_of_mem_ne hAvs hBvs h
    · exact two_le_length_of_mem_ne hBvs hCvs h
  obtain ⟨g, hg, hgall⟩ := buildGroups_mem_of_bucket fileSize
    (unionPhase identical_threshold similar_threshold (buildTree hashes)
      hashes).distances "identical" _ r vs (mem_of_lookup_eq_some hlk) hlen2
  have h1 : (find_duplicates fileSize hashes identical_threshold similar_threshold).1 =
      buildGroups fileSize
        (unionPhase identical_threshold similar_threshold (buildTree hashes)
          hashes).distances "identical"
        (collectIdenticalRoots
          (unionPhase identical_threshold similar_threshold (buildTree hashes)
            hashes).uf_identical hashes).2 := by
    simp only [find_duplicates, if_neg hlen]
  rw [h1]
  exact ⟨g, hg, hgall A hAvs, hgall B hBvs, hgall C hCvs⟩

/-- C4, witness for `C4_find_duplicates_transitive` on a concrete chain:
`A = (0,0)`, `B = (1,0)`, `C = (3,0)` with `distance(A,B) = distance(B,C) = 0`
at thresholds `0 < 1`. -/
theorem C4_find_duplicates_transitive_witness :
    ∃ g ∈ (find_duplicates (fun _ => 0)
        [ImageHash.mk 0 0 "a", ImageHash.mk 1 0 "b", ImageHash.mk 3 0 "c"] 0 1).1,
      ImageHash.mk 0 0 "a" ∈ g.all_images ∧ ImageHash.mk 1 0 "b" ∈ g.all_images ∧
        ImageHash.mk 3 0 "c" ∈ g.all_images :=
  C4_find_duplicates_transitive (fun _ => 0)
    [ImageHash.mk 0 0 "a", ImageHash.mk 1 0 "b", ImageHash.mk 3 0 "c"] 0 1
    (ImageHash.mk 0 0 "a") (ImageHash.mk 1 0 "b") (ImageHash.mk 3 0 "c")
    (by decide) (by decide) (by decide) (by decide) (by decide) (by decide) (by decide)
    (by decide)

end Declutter
